import Mathlib

/-!
Verification of the FFG_GEO geometric core against its specification.

The Python source is shallowly embedded: `float` coordinates become exact
rationals (the predicates and all decisions in the triangulation engine are
sign tests of polynomials, which `ℚ` models exactly), Python lists become
`List`, in-place mutation of the triangle array becomes explicit state
passing over `List Tri`, and Python exceptions become error/`Option`
results.  Python object identity (relevant because `Vector2` defines no
`__eq__`, so `==` on vertices is identity comparison) is modelled by an
object-id field on vertex objects.
-/

namespace FFG

/-! ## vector2.py: `Vector2` (coordinates only; arithmetic used by the core) -/

/-- The coordinate content of a `Vector2` (floats modelled as `ℚ`). -/
structure V2 where
  x : ℚ
  y : ℚ
deriving DecidableEq, Repr

instance : Inhabited V2 := ⟨⟨0, 0⟩⟩

/-- A `Vector2` *object*: Python objects have an identity (`oid`) in addition
to their coordinate value.  `Vector2` defines no `__eq__`, so Python `==` on
two `Vector2` objects is identity comparison: `pyEq` below. -/
structure V2Obj where
  pos : V2
  oid : ℕ
deriving DecidableEq, Repr

instance : Inhabited V2Obj := ⟨⟨default, 0⟩⟩

/-- Python `==` on `Vector2` objects: default object equality = identity. -/
def pyEq (a b : V2Obj) : Bool := a.oid = b.oid

/-! ## predicates.py -/

/-- `Orientation` enum of predicates.py. -/
inductive Orient where
  | CO_LINEAR
  | LEFT
  | RIGHT
deriving DecidableEq, Repr

/-- `Position` enum of predicates.py. -/
inductive Posn where
  | ON
  | INSIDE
  | OUTSIDE
deriving DecidableEq, Repr

/-- The signed-area polynomial computed inside `side`. -/
def sideVal (a b c : V2) : ℚ :=
  ((b.x - a.x) * (c.y - a.y)) - ((c.x - a.x) * (b.y - a.y))

/-- `side(a, b, c)` of predicates.py: which side of the directed line
`(a, b)` the point `c` lies on. -/
def side (a b c : V2) : Orient :=
  if sideVal a b c > 0 then .LEFT
  else if sideVal a b c < 0 then .RIGHT
  else .CO_LINEAR

/-- The determinant computed inside `in_circle` (`retval` in the source). -/
def inCircleVal (a b c d : V2) : ℚ :=
  let adx := a.x - d.x
  let ady := a.y - d.y
  let bdx := b.x - d.x
  let bdy := b.y - d.y
  let cdx := c.x - d.x
  let cdy := c.y - d.y
  let abdet := adx * bdy - bdx * ady
  let bcdet := bdx * cdy - cdx * bdy
  let cadet := cdx * ady - adx * cdy
  let alift := adx * adx + ady * ady
  let blift := bdx * bdx + bdy * bdy
  let clift := cdx * cdx + cdy * cdy
  alift * bcdet + blift * cadet + clift * abdet

/-- `in_circle(a, b, c, d)` of predicates.py: position of `d` with respect
to the circle through `a, b, c` (assumed counter-clockwise). -/
def inCircle (a b c d : V2) : Posn :=
  if inCircleVal a b c d > 0 then .INSIDE
  else if inCircleVal a b c d = 0 then .ON
  else .OUTSIDE

/-! ## plane3.py and vector3.py (the parts `Plane3.coplanar` needs) -/

/-- Coordinates of a `Vector3` (floats modelled as `ℚ`). -/
structure V3 where
  x : ℚ
  y : ℚ
  z : ℚ
deriving DecidableEq, Repr

instance : Inhabited V3 := ⟨⟨0, 0, 0⟩⟩

/-- `Vector3.dot`. -/
def V3.dot (a b : V3) : ℚ := a.x * b.x + a.y * b.y + a.z * b.z

/-- `Vector3.negated`. -/
def V3.negated (a : V3) : V3 := ⟨-a.x, -a.y, -a.z⟩

/-- `Vector3.plus`. -/
def V3.plus (a b : V3) : V3 := ⟨a.x + b.x, a.y + b.y, a.z + b.z⟩

/-- `Vector3.minus`. -/
def V3.minus (a b : V3) : V3 := ⟨a.x - b.x, a.y - b.y, a.z - b.z⟩

/-- `Vector3.times`. -/
def V3.times (a : V3) (t : ℚ) : V3 := ⟨a.x * t, a.y * t, a.z * t⟩

/-- `Vector3.cross`. -/
def V3.cross (a b : V3) : V3 :=
  ⟨a.y * b.z - a.z * b.y, a.z * b.x - a.x * b.z, a.x * b.y - a.y * b.x⟩

/-- `Vector3.lerp`. -/
def V3.lerp (a b : V3) (t : ℚ) : V3 := a.plus ((b.minus a).times t)

/-- `Plane3` of plane3.py: a directed plane `(normal, w)`. -/
structure Plane3 where
  normal : V3
  w : ℚ
deriving DecidableEq, Repr

/-- `Plane3.distance`: signed distance `n·p − w`. -/
def Plane3.distance (p : Plane3) (v : V3) : ℚ := p.normal.dot v - p.w

/-- `Plane3.coplanar`: the source tests `self.distance(vector) < epsilon`
(one-sided, not an absolute-value band). -/
def Plane3.coplanar (p : Plane3) (v : V3) (epsilon : ℚ) : Bool :=
  p.distance v < epsilon

/-! ## triangle2.py: `Triangle2`

`v` holds the three vertex indices in counter-clockwise order (`v2 = None`
marks a ghost triangle), `n` the three neighbour triangle indices.  The
source indexes both with `(k + i) % 3`; the accessors below do the same. -/

structure Tri where
  v0 : Option ℕ
  v1 : Option ℕ
  v2 : Option ℕ
  n0 : ℕ
  n1 : ℕ
  n2 : ℕ
deriving DecidableEq, Repr

instance : Inhabited Tri := ⟨⟨none, none, none, 0, 0, 0⟩⟩

/-- `t.v[s % 3]`. -/
def Tri.vAt (t : Tri) (s : ℕ) : Option ℕ :=
  if s % 3 = 0 then t.v0 else if s % 3 = 1 then t.v1 else t.v2

/-- `t.n[s % 3]`. -/
def Tri.nAt (t : Tri) (s : ℕ) : ℕ :=
  if s % 3 = 0 then t.n0 else if s % 3 = 1 then t.n1 else t.n2

/-- `t.v[s % 3] = x`. -/
def Tri.setV (t : Tri) (s : ℕ) (x : Option ℕ) : Tri :=
  if s % 3 = 0 then { t with v0 := x }
  else if s % 3 = 1 then { t with v1 := x }
  else { t with v2 := x }

/-- `t.n[s % 3] = m`. -/
def Tri.setN (t : Tri) (s : ℕ) (m : ℕ) : Tri :=
  if s % 3 = 0 then { t with n0 := m }
  else if s % 3 = 1 then { t with n1 := m }
  else { t with n2 := m }

/-- A triangle is a ghost when its third vertex is `None`. -/
def Tri.isGhost (t : Tri) : Bool := t.v2 = none

/-- `self.triangles[i]` (in-range on all executed paths of the source;
out-of-range access would be a Python `IndexError`). -/
def getT (tris : List Tri) (i : ℕ) : Tri := tris.getD i default

/-- `self.triangles[i] = t` (as mutation of the triangle array). -/
def setT (tris : List Tri) (i : ℕ) (t : Tri) : List Tri := tris.set i t

/-! ## triangulation2.py: state and preprocessing -/

/-- Python error kinds relevant to the claims: `Exception('NOT IMPLEMENTED.')`
versus any other runtime exception (`TypeError`, `IndexError`, the
invariant-violation `Exception` of the flip pass, ...). -/
inductive PyErr where
  | notImplemented
  | runtime
deriving DecidableEq, Repr

/-- `MergeMethod` enum. -/
inductive MergeMethod where
  | ARBITRARY
  | FLIP
  | DELAUNAY
deriving DecidableEq, Repr

/-- `CutMethod` enum. -/
inductive CutMethod where
  | VERTICAL
  | HORIZONTAL
  | ALTERNATING
deriving DecidableEq, Repr

/-- The mutable state of a `Triangulation2` (the drawing-related fields
`window`, `display_mode`, `order` are omitted: with `window = None` every
`draw` call returns immediately and touches nothing). -/
structure TriSt where
  vertices : List V2Obj
  indices : List (Option ℕ)
  segments : List (ℕ × ℕ)
  triangles : List Tri
deriving DecidableEq, Repr

/-- Position of vertex index `k` (source: `self.vertices[k]`). -/
def vpos (st : TriSt) (k : ℕ) : V2 := (st.vertices.getD k default).pos

/-- `Triangulation2.__side(a, b, c)`: `side` on vertex indices. -/
def sideI (st : TriSt) (a b c : ℕ) : Orient :=
  side (vpos st a) (vpos st b) (vpos st c)

/-- The sort key used by `__sort`: `(y, x)` for horizontal cuts, `(x, y)`
otherwise, compared lexicographically (Python tuple `≤`). -/
def keyLe (cm : CutMethod) (p q : ℕ × V2Obj) : Bool :=
  let kp := if cm = .HORIZONTAL then (p.2.pos.y, p.2.pos.x) else (p.2.pos.x, p.2.pos.y)
  let kq := if cm = .HORIZONTAL then (q.2.pos.y, q.2.pos.x) else (q.2.pos.x, q.2.pos.y)
  kp.1 < kq.1 ∨ (kp.1 = kq.1 ∧ kp.2 ≤ kq.2)

/-- Insert `x` after every element whose key is `≤` its key (so that the
fold below is a stable sort, like Python's `sorted`). -/
def insertSorted (le : α → α → Bool) (x : α) : List α → List α
  | [] => [x]
  | y :: ys => if le y x then y :: insertSorted le x ys else x :: y :: ys

/-- Stable sort (insertion sort, processing elements left to right),
modelling Python's stable `sorted`. -/
def stableSort (le : α → α → Bool) (l : List α) : List α :=
  l.foldl (fun acc x => insertSorted le x acc) []

/-- The duplicate-elimination loop of `__sort`.  The test
`self.vertices[len(self.vertices) - 1] == vertex` uses Python `==`, which
for `Vector2` (no `__eq__`) is object-identity comparison (`pyEq`). -/
def dedupLoop (pending : List (ℕ × V2Obj)) (verts : List V2Obj)
    (idxs : List (Option ℕ)) : List V2Obj × List (Option ℕ) :=
  match pending with
  | [] => (verts, idxs)
  | (index, vertex) :: rest =>
    if pyEq (verts.getD (verts.length - 1) default) vertex then
      dedupLoop rest verts (idxs.set index (some (verts.length - 1)))
    else
      dedupLoop rest (verts ++ [vertex]) (idxs.set index (some verts.length))

/-- The segment-adjustment loop of `__sort` (`IndexError` on an
out-of-range original index, `TypeError` if an index slot were `None`,
both modelled as `runtime`). -/
def adjustSegments (idxs : List (Option ℕ)) :
    List (ℕ × ℕ) → Except PyErr (List (ℕ × ℕ))
  | [] => .ok []
  | (a, b) :: rest =>
    match idxs.getD a none, idxs.getD b none with
    | some a2, some b2 => do
      let r ← adjustSegments idxs rest
      .ok ((min a2 b2, max a2 b2) :: r)
    | _, _ => .error .runtime

/-- `Triangulation2.__sort`.  Returns the state after the method together
with the exception it raised, if any (Python mutations persist across a
raised exception, hence the pair rather than `Except`). -/
def sortStep (cm : CutMethod) (st : TriSt) : TriSt × Option PyErr :=
  if st.vertices.length < 2 then (st, none)
  else
    let enumerated := stableSort (keyLe cm) st.vertices.enum
    let idxs0 : List (Option ℕ) := List.replicate st.vertices.length none
    match enumerated with
    | [] => (st, none)
    | (i0, v0) :: rest =>
      let dd := dedupLoop rest [v0] (idxs0.set i0 (some 0))
      let st := { st with vertices := dd.1, indices := dd.2 }
      if cm = .ALTERNATING then (st, some .notImplemented)
      else
        match adjustSegments dd.2 st.segments with
        | .ok segs => ({ st with segments := segs }, none)
        | .error e => (st, some e)

/-! ## triangulation2.py: `__trivial_triangulation` -/

/-- `Triangulation2.__trivial_triangulation(begin, end)` for
`2 ≤ end − begin ≤ 3`: appends the base-case triangles and returns the
indices of ghost triangles 2, 3, 6 and 7. -/
def trivialTriangulation (st : TriSt) (b e : ℕ) :
    TriSt × (ℕ × ℕ × ℕ × ℕ) :=
  let num := e - b
  let num_t := st.triangles.length
  if num < 3 then
    let t_0 : Tri := ⟨some b, some (b + 1), none, num_t + 1, num_t + 1, num_t + 1⟩
    let t_1 : Tri := ⟨some (b + 1), some b, none, num_t, num_t, num_t⟩
    ({ st with triangles := st.triangles ++ [t_0, t_1] },
      (num_t, num_t + 1, num_t + 1, num_t))
  else
    match sideI st b (b + 1) (b + 2) with
    | .LEFT =>
      let end_pt := b + 1
      let left_pt := b + 2
      let t_0 : Tri := ⟨some b, some end_pt, some left_pt, num_t + 1, num_t + 2, num_t + 3⟩
      let t_1 : Tri := ⟨some end_pt, some b, none, num_t, num_t + 3, num_t + 2⟩
      let t_2 : Tri := ⟨some left_pt, some end_pt, none, num_t, num_t + 1, num_t + 3⟩
      let t_3 : Tri := ⟨some b, some left_pt, none, num_t, num_t + 2, num_t + 1⟩
      ({ st with triangles := st.triangles ++ [t_0, t_1, t_2, t_3] },
        (num_t + 3, num_t + 1, num_t + 2, num_t + 3))
    | .RIGHT =>
      let end_pt := b + 2
      let left_pt := b + 1
      let t_0 : Tri := ⟨some b, some end_pt, some left_pt, num_t + 1, num_t + 2, num_t + 3⟩
      let t_1 : Tri := ⟨some end_pt, some b, none, num_t, num_t + 3, num_t + 2⟩
      let t_2 : Tri := ⟨some left_pt, some end_pt, none, num_t, num_t + 1, num_t + 3⟩
      let t_3 : Tri := ⟨some b, some left_pt, none, num_t, num_t + 2, num_t + 1⟩
      ({ st with triangles := st.triangles ++ [t_0, t_1, t_2, t_3] },
        (num_t + 3, num_t + 1, num_t + 1, num_t + 2))
    | .CO_LINEAR =>
      let t_0 : Tri := ⟨some b, some (b + 1), none, num_t + 1, num_t + 2, num_t + 1⟩
      let t_1 : Tri := ⟨some (b + 1), some b, none, num_t, num_t, num_t + 3⟩
      let t_2 : Tri := ⟨some (b + 1), some (b + 2), none, num_t + 3, num_t + 3, num_t⟩
      let t_3 : Tri := ⟨some (b + 2), some (b + 1), none, num_t + 2, num_t + 1, num_t + 2⟩
      ({ st with triangles := st.triangles ++ [t_0, t_1, t_2, t_3] },
        (num_t, num_t + 1, num_t + 3, num_t + 2))

/-! ## triangulation2.py: `__merge_arbitrary` -/

/-- Read a vertex-index slot that holds an actual index on all executed
paths of the source (a `None` there would be a Python `TypeError`). -/
def ovi (o : Option ℕ) : ℕ := o.getD 0

/-- The upward-stitching loop of `__merge_arbitrary` (`while True:` after
"Stitch above the initial triangle"), with explicit fuel; the `draw` calls
of the source are no-ops with no window. -/
def stitchUp (st : TriSt) : ℕ → List Tri → Bool → ℕ → ℕ → Option (List Tri)
  | 0, _, _, _, _ => none
  | fuel + 1, tris, based_left, current_tri, opposite_tri =>
    let l_v := if based_left then ovi ((getT tris current_tri).vAt 0)
      else ovi ((getT tris current_tri).vAt 2)
    let r_v := if based_left then ovi ((getT tris current_tri).vAt 2)
      else ovi ((getT tris current_tri).vAt 1)
    let lg_tri := if based_left then (getT tris current_tri).nAt 2 else opposite_tri
    let rg_tri := if based_left then opposite_tri else (getT tris current_tri).nAt 1
    let lu_v := if based_left then ovi ((getT tris lg_tri).vAt 0)
      else ovi ((getT tris opposite_tri).vAt 0)
    let ru_v := if based_left then ovi ((getT tris opposite_tri).vAt 1)
      else ovi ((getT tris rg_tri).vAt 1)
    let c_tri_neighbor := if based_left then 2 else 1
    if side (vpos st lu_v) (vpos st l_v) (vpos st r_v) = .LEFT then
      let tris := setT tris lg_tri ((getT tris lg_tri).setV 2 (some r_v))
      let tris := setT tris lg_tri ((getT tris lg_tri).setN 1 current_tri)
      let tris := setT tris current_tri ((getT tris current_tri).setN c_tri_neighbor lg_tri)
      let opposite2 := if ¬based_left then rg_tri else opposite_tri
      stitchUp st fuel tris true lg_tri opposite2
    else if side (vpos st ru_v) (vpos st r_v) (vpos st l_v) = .RIGHT then
      let tris := setT tris rg_tri ((getT tris rg_tri).setV 2 (some l_v))
      let tris := setT tris rg_tri ((getT tris rg_tri).setN 2 current_tri)
      let tris := setT tris current_tri ((getT tris current_tri).setN c_tri_neighbor rg_tri)
      let opposite2 := if based_left then lg_tri else opposite_tri
      stitchUp st fuel tris false rg_tri opposite2
    else
      let num_tri := tris.length
      let rg_tri2 := if based_left then opposite_tri else (getT tris current_tri).nAt 1
      let lg_tri2 := if based_left then (getT tris current_tri).nAt 2 else opposite_tri
      let tris := setT tris current_tri
        ((getT tris current_tri).setN (if based_left then 2 else 1) num_tri)
      let tris := setT tris rg_tri2 ((getT tris rg_tri2).setN 2 num_tri)
      let tris := setT tris lg_tri2 ((getT tris lg_tri2).setN 1 num_tri)
      let new_ghost : Tri := ⟨some l_v, some r_v, none, current_tri, rg_tri2, lg_tri2⟩
      some (tris ++ [new_ghost])

/-- The downward-stitching loop of `__merge_arbitrary` ("Stitch below the
initial triangle"). -/
def stitchDown (st : TriSt) : ℕ → List Tri → Bool → ℕ → ℕ → Option (List Tri)
  | 0, _, _, _, _ => none
  | fuel + 1, tris, based_left, current_tri, opposite_tri =>
    let l_v := if based_left then ovi ((getT tris current_tri).vAt 1)
      else ovi ((getT tris current_tri).vAt 2)
    let r_v := if based_left then ovi ((getT tris current_tri).vAt 2)
      else ovi ((getT tris current_tri).vAt 0)
    let lg_tri := if based_left then (getT tris current_tri).nAt 1 else opposite_tri
    let rg_tri := if based_left then opposite_tri else (getT tris current_tri).nAt 2
    let ld_v := if based_left then ovi ((getT tris lg_tri).vAt 1)
      else ovi ((getT tris opposite_tri).vAt 1)
    let rd_v := if based_left then ovi ((getT tris opposite_tri).vAt 0)
      else ovi ((getT tris rg_tri).vAt 0)
    let c_tri_neighbor := if based_left then 1 else 2
    if side (vpos st ld_v) (vpos st l_v) (vpos st r_v) = .RIGHT then
      let tris := setT tris lg_tri ((getT tris lg_tri).setV 2 (some r_v))
      let tris := setT tris lg_tri ((getT tris lg_tri).setN 2 current_tri)
      let tris := setT tris current_tri ((getT tris current_tri).setN c_tri_neighbor lg_tri)
      let opposite2 := if ¬based_left then rg_tri else opposite_tri
      stitchDown st fuel tris true lg_tri opposite2
    else if side (vpos st rd_v) (vpos st r_v) (vpos st l_v) = .LEFT then
      let tris := setT tris rg_tri ((getT tris rg_tri).setV 2 (some l_v))
      let tris := setT tris rg_tri ((getT tris rg_tri).setN 1 current_tri)
      let tris := setT tris current_tri ((getT tris current_tri).setN c_tri_neighbor rg_tri)
      let opposite2 := if based_left then lg_tri else opposite_tri
      stitchDown st fuel tris false rg_tri opposite2
    else
      let num_tri := tris.length
      let rg_tri2 := if based_left then (getT tris current_tri).nAt 1 else opposite_tri
      let lg_tri2 := if based_left then opposite_tri else (getT tris current_tri).nAt 2
      let tris := setT tris current_tri
        ((getT tris current_tri).setN (if based_left then 1 else 2) num_tri)
      let tris := setT tris rg_tri2 ((getT tris rg_tri2).setN 2 num_tri)
      let tris := setT tris lg_tri2 ((getT tris lg_tri2).setN 1 num_tri)
      let new_ghost : Tri := ⟨some r_v, some l_v, none, current_tri, rg_tri2, lg_tri2⟩
      some (tris ++ [new_ghost])

/-- `Triangulation2.__merge_arbitrary(tri_l6, tri_l7, tri_r2, tri_r3)`. -/
def mergeArbitrary (fuel : ℕ) (st : TriSt)
    (tri_l6 tri_l7 tri_r2 tri_r3 : ℕ) : Option TriSt :=
  let num_t := st.triangles.length
  let lr_v := ovi ((getT st.triangles tri_l6).vAt 0)
  let lru_v := ovi ((getT st.triangles tri_l7).vAt 0)
  let lrd_v := ovi ((getT st.triangles tri_l6).vAt 1)
  let rl_v := ovi ((getT st.triangles tri_r2).vAt 0)
  let rlu_v := ovi ((getT st.triangles tri_r2).vAt 1)
  let rld_v := ovi ((getT st.triangles tri_r3).vAt 0)
  let sel : Option (ℕ × ℕ × Bool × ℕ × ℕ) :=
    if sideI st lru_v lr_v rl_v = .LEFT then some (tri_l7, rl_v, true, tri_r2, tri_r3)
    else if sideI st lrd_v lr_v rl_v = .RIGHT then some (tri_l6, rl_v, true, tri_r2, tri_r3)
    else if sideI st lr_v rl_v rlu_v = .LEFT then some (tri_r2, lr_v, false, tri_l7, tri_l6)
    else if sideI st lr_v rl_v rld_v = .RIGHT then some (tri_r3, lr_v, false, tri_l7, tri_l6)
    else none
  match sel with
  | none =>
    -- co-linear bridging: two new ghost triangles on the bridging edge
    let t_0 : Tri := ⟨some lr_v, some rl_v, none, num_t + 1, tri_r2, tri_l7⟩
    let t_1 : Tri := ⟨some rl_v, some lr_v, none, num_t + 0, tri_l6, tri_r3⟩
    let tris := setT st.triangles tri_l7 ((getT st.triangles tri_l7).setN 1 (num_t + 0))
    let tris := setT tris tri_r2 ((getT tris tri_r2).setN 2 (num_t + 0))
    let tris := setT tris tri_l6 ((getT tris tri_l6).setN 2 (num_t + 1))
    let tris := setT tris tri_r3 ((getT tris tri_r3).setN 1 (num_t + 1))
    some { st with triangles := tris ++ [t_0, t_1] }
  | some (initial_tri, initial_v, initial_based_left, initial_opposite_tri, later_opposite_tri) =>
    let tris := setT st.triangles initial_tri
      ((getT st.triangles initial_tri).setV 2 (some initial_v))
    match stitchUp st fuel tris initial_based_left initial_tri initial_opposite_tri with
    | none => none
    | some tris =>
      match stitchDown st fuel tris initial_based_left initial_tri later_opposite_tri with
      | none => none
      | some tris => some { st with triangles := tris }

/-! ## triangulation2.py: `__find_ghosts` and `__divide_and_conquer` -/

/-- One of the four hull walks of `__find_ghosts`: starting from `cur`,
step through neighbour slot `fN` once and then through slot `tN` until a
ghost triangle is reached. -/
def ghostWalk (tris : List Tri) (fN tN : ℕ) : ℕ → ℕ → Bool → Option ℕ
  | 0, _, _ => none
  | fuel + 1, cur, first_done =>
    if (getT tris cur).vAt 2 = none then some cur
    else if first_done then ghostWalk tris fN tN fuel ((getT tris cur).nAt tN) true
    else ghostWalk tris fN tN fuel ((getT tris cur).nAt fN) true

/-- `Triangulation2.__find_ghosts(tri_l2, tri_l3, tri_r6, tri_r7)`. -/
def findGhosts (fuel : ℕ) (tris : List Tri) (tri_l2 tri_l3 tri_r6 tri_r7 : ℕ) :
    Option (ℕ × ℕ × ℕ × ℕ) := do
  let g2 ← ghostWalk tris 2 1 fuel tri_l2 false
  let g3 ← ghostWalk tris 1 2 fuel tri_l3 false
  let g6 ← ghostWalk tris 2 1 fuel tri_r6 false
  let g7 ← ghostWalk tris 1 2 fuel tri_r7 false
  some (g2, g3, g6, g7)

/-- `Triangulation2.__divide_and_conquer(begin, end)` with explicit fuel
(`none` means the fuel ran out, never a Python behaviour). -/
def divConq : ℕ → TriSt → ℕ → ℕ → Option (TriSt × (ℕ × ℕ × ℕ × ℕ))
  | 0, _, _, _ => none
  | fuel + 1, st, b, e =>
    if e - b < 4 then some (trivialTriangulation st b e)
    else
      let divider := ((e - b) >>> 1) + b
      match divConq fuel st b divider with
      | none => none
      | some (st1, (tri_l2, tri_l3, tri_l6, tri_l7)) =>
        match divConq fuel st1 divider e with
        | none => none
        | some (st2, (tri_r2, tri_r3, tri_r6, tri_r7)) =>
          match mergeArbitrary fuel st2 tri_l6 tri_l7 tri_r2 tri_r3 with
          | none => none
          | some st3 =>
            match findGhosts fuel st3.triangles tri_l2 tri_l3 tri_r6 tri_r7 with
            | none => none
            | some four => some (st3, four)

/-- `Triangulation2.triangulate(merge_method, cut_method)`.  The result is
the state after the call and the exception raised (if any); `none` means
the fuel of the embedding ran out. -/
def pyTriangulate (mm : MergeMethod) (cm : CutMethod) (fuel : ℕ)
    (st : TriSt) : Option (TriSt × Option PyErr) :=
  let st := { st with triangles := [] }
  if mm = .FLIP ∨ mm = .DELAUNAY then some (st, some .notImplemented)
  else if cm = .HORIZONTAL ∨ cm = .ALTERNATING then some (st, some .notImplemented)
  else
    match sortStep cm st with
    | (st, some e) => some (st, some e)
    | (st, none) =>
      if st.vertices.length < 2 then some (st, none)
      else
        match divConq fuel st 0 st.vertices.length with
        | none => none
        | some (st, _) => some (st, none)

/-! ## bsp3.py

Polygons are mutable Python objects; the embedding gives each a numeric
object id into a store (`PStore`), so that in-place mutation
(`BSPPolygon3.flip` during `invert`) and cloning are modelled faithfully.
`BSPVertex3` carries only a position and its `flip` is a no-op, so vertex
objects are embedded by value.  The only non-algebraic float operation,
the square root inside `Vector3.unit`, is abstracted as a parameter
`rt : ℚ → ℚ`; no claim depends on its value. -/

/-- `Vector3.divide` (division by zero would be a Python
`ZeroDivisionError`; in `ℚ` it yields `0`, on paths no claim exercises). -/
def V3.divide (a : V3) (t : ℚ) : V3 := ⟨a.x / t, a.y / t, a.z / t⟩

/-- `Vector3.unit` with the square root abstracted: `self / sqrt(self·self)`. -/
def V3.unitWith (rt : ℚ → ℚ) (a : V3) : V3 := a.divide (rt (a.dot a))

/-- `BSPPlane3`: a splitting plane `(normal, w)`. -/
structure BSPPlane3 where
  normal : V3
  w : ℚ
deriving DecidableEq, Repr

instance : Inhabited BSPPlane3 := ⟨⟨default, 0⟩⟩

/-- `BSPPlane3.EPSILON = 1.e-5`. -/
def bspEpsilon : ℚ := 1 / 100000

/-- `BSPPlane3.flip`. -/
def BSPPlane3.flipped (p : BSPPlane3) : BSPPlane3 := ⟨p.normal.negated, -p.w⟩

/-- `BSPPlane3.from_points`. -/
def planeFromPoints (rt : ℚ → ℚ) (a b c : V3) : BSPPlane3 :=
  let n := ((b.minus a).cross (c.minus a)).unitWith rt
  ⟨n, n.dot a⟩

/-- The record held by a `BSPPolygon3` object: its vertex positions (in
ring order), its opaque `shared` tag, and its cached supporting plane. -/
structure PRec (α : Type) where
  vertices : List V3
  shared : α
  plane : BSPPlane3

/-- The heap of `BSPPolygon3` objects: object ids below `nxt` are
allocated; `recs` maps each id to its current record. -/
structure PStore (α : Type) where
  nxt : ℕ
  recs : ℕ → PRec α

/-- The `BSPPolygon3` constructor: computes the plane from vertices
0, 1, 2 and allocates a fresh object. -/
def allocPoly (rt : ℚ → ℚ) (verts : List V3) (shared : α) (s : PStore α) :
    ℕ × PStore α :=
  let plane := planeFromPoints rt (verts.getD 0 default) (verts.getD 1 default)
    (verts.getD 2 default)
  (s.nxt, ⟨s.nxt + 1, fun i => if i = s.nxt then ⟨verts, shared, plane⟩ else s.recs i⟩)

/-- `BSPPolygon3.clone`: clone the vertices and re-run the constructor. -/
def clonePoly (rt : ℚ → ℚ) (pid : ℕ) (s : PStore α) : ℕ × PStore α :=
  allocPoly rt (s.recs pid).vertices (s.recs pid).shared s

/-- `BSPPolygon3.flip` (in place): reverse the vertex ring (each vertex's
own `flip` is a no-op) and flip the cached plane. -/
def flipPoly (pid : ℕ) (s : PStore α) : PStore α :=
  ⟨s.nxt, fun i => if i = pid then
      ⟨(s.recs pid).vertices.reverse, (s.recs pid).shared, (s.recs pid).plane.flipped⟩
    else s.recs i⟩

/-- `BSP3.clone`: clone every polygon of a polygon list (in order). -/
def cloneIds (rt : ℚ → ℚ) : List ℕ → PStore α → List ℕ × PStore α
  | [], s => ([], s)
  | pid :: rest, s =>
    let (nid, s) := clonePoly rt pid s
    let (nrest, s) := cloneIds rt rest s
    (nid :: nrest, s)

/-- Flip every polygon of a list in place (the loop of `BSP3.inverse` and
of `BSPNode3.invert`). -/
def flipIds : List ℕ → PStore α → PStore α
  | [], s => s
  | pid :: rest, s => flipIds rest (flipPoly pid s)

/-- `BSP3.inverse`: clone the polygon set, then flip each clone in place. -/
def bspInverse (rt : ℚ → ℚ) (pa : List ℕ) (s : PStore α) :
    List ℕ × PStore α :=
  let (ids, s) := cloneIds rt pa s
  (ids, flipIds ids s)

/-- The per-vertex classification loop of `BSPPlane3.split_polygon`:
`2` = BACK, `1` = FRONT, `0` = COPLANAR; `polygon_type` is the bitwise or
of the labels. -/
def vertexTypes (p : BSPPlane3) (verts : List V3) : List ℕ :=
  verts.map (fun v =>
    let t := p.normal.dot v - p.w
    if t < -bspEpsilon then 2 else if t > bspEpsilon then 1 else 0)

/-- The ring walk of the SPANNING case of `split_polygon`, producing the
front and back vertex lists `f` and `b`. -/
def spanWalk (p : BSPPlane3) (verts : List V3) (types : List ℕ) :
    List ℕ → List V3 × List V3
  | [] => ([], [])
  | i :: rest =>
    let j := (i + 1) % verts.length
    let ti := types.getD i 0
    let tj := types.getD j 0
    let vi := verts.getD i default
    let vj := verts.getD j default
    let f1 : List V3 := if ti ≠ 2 then [vi] else []
    let b1 : List V3 := if ti ≠ 1 then [vi] else []
    let fb2 : List V3 :=
      if ti.lor tj = 3 then
        let t := (p.w - p.normal.dot vi) / (p.normal.dot (vj.minus vi))
        [vi.lerp vj t]
      else []
    let rest2 := spanWalk p verts types rest
    (f1 ++ fb2 ++ rest2.1, b1 ++ fb2 ++ rest2.2)

/-- Result of `BSPPlane3.split_polygon(polygon, ...)`: the store after any
allocations and the ids appended to the four output lists. -/
structure SplitOut (α : Type) where
  store : PStore α
  cf : List ℕ
  cb : List ℕ
  fr : List ℕ
  bk : List ℕ

/-- `BSPPlane3.split_polygon(polygon, coplanar_front, coplanar_back,
front, back)`. -/
def splitPolygon (rt : ℚ → ℚ) (p : BSPPlane3) (pid : ℕ) (s : PStore α) :
    SplitOut α :=
  let verts := (s.recs pid).vertices
  let sh := (s.recs pid).shared
  let types := vertexTypes p verts
  let polygon_type := types.foldl Nat.lor 0
  if polygon_type = 0 then
    if p.normal.dot (s.recs pid).plane.normal > 0 then ⟨s, [pid], [], [], []⟩
    else ⟨s, [], [pid], [], []⟩
  else if polygon_type = 1 then ⟨s, [], [], [pid], []⟩
  else if polygon_type = 2 then ⟨s, [], [], [], [pid]⟩
  else
    let fb := spanWalk p verts types (List.range verts.length)
    let fOut : List ℕ := if fb.1.length ≥ 3 then [(allocPoly rt fb.1 sh s).1] else []
    let s1 := if fb.1.length ≥ 3 then (allocPoly rt fb.1 sh s).2 else s
    let bOut : List ℕ := if fb.2.length ≥ 3 then [(allocPoly rt fb.2 sh s1).1] else []
    let s2 := if fb.2.length ≥ 3 then (allocPoly rt fb.2 sh s1).2 else s1
    ⟨s2, [], [], fOut, bOut⟩

/-- A `BSPNode3`: splitting plane, front and back children, and the node's
own polygon (object-id) list. -/
inductive BNode where
  | mk (plane : Option BSPPlane3) (front : Option BNode) (back : Option BNode)
      (polygons : List ℕ)

/-- The node a bare `BSPNode3()` constructor yields. -/
def emptyNode : BNode := .mk none none none []

/-- The polygon-splitting fold inside `BSPNode3.clip_polygons`: coplanar
polygons go with the front/back lists. -/
def clipSplitFold (rt : ℚ → ℚ) (p : BSPPlane3) :
    List ℕ → PStore α → PStore α × List ℕ × List ℕ
  | [], s => (s, [], [])
  | pid :: rest, s =>
    let r1 := splitPolygon rt p pid s
    let r2 := clipSplitFold rt p rest r1.store
    (r2.1, r1.cf ++ r1.fr ++ r2.2.1, r1.cb ++ r1.bk ++ r2.2.2)

/-- `BSPNode3.clip_polygons(polygons)`. -/
def clipPolys (rt : ℚ → ℚ) : BNode → List ℕ → PStore α → PStore α × List ℕ
  | .mk none _ _ _, ids, s => (s, ids)
  | .mk (some p) fr bk _, ids, s =>
    let r := clipSplitFold rt p ids s
    let rf := match fr with
      | some f => clipPolys rt f r.2.1 r.1
      | none => (r.1, r.2.1)
    let rb := match bk with
      | some b => clipPolys rt b r.2.2 rf.1
      | none => (rf.1, [])
    (rb.1, rf.2 ++ rb.2)

/-- `BSPNode3.clip_to(bsp)`. -/
def clipTo (rt : ℚ → ℚ) : BNode → BNode → PStore α → BNode × PStore α
  | .mk pl fr bk polys, other, s =>
    let r := clipPolys rt other polys s
    let rf : Option BNode × PStore α := match fr with
      | none => (none, r.1)
      | some f =>
        let q := clipTo rt f other r.1
        (some q.1, q.2)
    let rb : Option BNode × PStore α := match bk with
      | none => (none, rf.2)
      | some b =>
        let q := clipTo rt b other rf.2
        (some q.1, q.2)
    (.mk pl rf.1 rb.1 r.2, rb.2)

/-- `BSPNode3.invert()`: flip own polygons and plane, recurse, then swap
the children. -/
def invertNode : BNode → PStore α → BNode × PStore α
  | .mk pl fr bk polys, s =>
    let s := flipIds polys s
    let pl2 := pl.map BSPPlane3.flipped
    let rf : Option BNode × PStore α := match fr with
      | none => (none, s)
      | some f =>
        let q := invertNode f s
        (some q.1, q.2)
    let rb : Option BNode × PStore α := match bk with
      | none => (none, rf.2)
      | some b =>
        let q := invertNode b rf.2
        (some q.1, q.2)
    (.mk pl2 rb.1 rf.1 polys, rb.2)

/-- `BSPNode3.all_polygons()`. -/
def allPolys : BNode → List ℕ
  | .mk _ fr bk polys =>
    polys ++ (match fr with | some f => allPolys f | none => [])
      ++ (match bk with | some b => allPolys b | none => [])

/-- The splitting fold inside `BSPNode3.build`: both coplanar outputs are
routed to the node's own polygon list. -/
def buildSplitFold (rt : ℚ → ℚ) (p : BSPPlane3) :
    List ℕ → PStore α → PStore α × List ℕ × List ℕ × List ℕ
  | [], s => (s, [], [], [])
  | pid :: rest, s =>
    let r1 := splitPolygon rt p pid s
    let r2 := buildSplitFold rt p rest r1.store
    (r2.1, r1.cf ++ r1.cb ++ r2.2.1, r1.fr ++ r2.2.2.1, r1.bk ++ r2.2.2.2)

/-- `BSPNode3.build(polygons)` (with fuel: the recursion depth of the
source is not structurally bounded). -/
def buildNode (rt : ℚ → ℚ) : ℕ → BNode → List ℕ → PStore α →
    Option (BNode × PStore α)
  | 0, _, _, _ => none
  | _ + 1, node, [], s => some (node, s)
  | fuel + 1, .mk pl fr bk polys, pid :: rest, s =>
    let plane := match pl with
      | some p => p
      | none => (s.recs pid).plane
    let r := buildSplitFold rt plane rest s
    let polys2 := polys ++ [pid] ++ r.2.1
    let stepF : Option (Option BNode × PStore α) :=
      if r.2.2.1.length > 0 then
        (buildNode rt fuel (fr.getD emptyNode) r.2.2.1 r.1).map
          (fun q => (some q.1, q.2))
      else some (fr, r.1)
    match stepF with
    | none => none
    | some (fr2, s2) =>
      let stepB : Option (Option BNode × PStore α) :=
        if r.2.2.2.length > 0 then
          (buildNode rt fuel (bk.getD emptyNode) r.2.2.2 s2).map
            (fun q => (some q.1, q.2))
        else some (bk, s2)
      match stepB with
      | none => none
      | some (bk2, s3) => some (.mk (some plane) fr2 bk2 polys2, s3)

/-- The `BSPNode3(polygons)` constructor. -/
def mkNode (rt : ℚ → ℚ) (fuel : ℕ) (ids : List ℕ) (s : PStore α) :
    Option (BNode × PStore α) :=
  if ids.length > 0 then buildNode rt fuel emptyNode ids s
  else some (emptyNode, s)

/-- `BSP3.union(bsp)`: result is the polygon-id list of the new `BSP3`
(via `from_polygons(a.all_polygons())`) together with the final store. -/
def bspUnion (rt : ℚ → ℚ) (fuel : ℕ) (pa pb : List ℕ) (s : PStore α) :
    Option (PStore α × List ℕ) :=
  let rca := cloneIds rt pa s
  let rcb := cloneIds rt pb rca.2
  match mkNode rt fuel rca.1 rcb.2 with
  | none => none
  | some (a0, s1) =>
    match mkNode rt fuel rcb.1 s1 with
    | none => none
    | some (b0, s2) =>
      let ra := clipTo rt a0 b0 s2
      let rb := clipTo rt b0 ra.1 ra.2
      let rb2 := invertNode rb.1 rb.2
      let rb3 := clipTo rt rb2.1 ra.1 rb2.2
      let rb4 := invertNode rb3.1 rb3.2
      match buildNode rt fuel ra.1 (allPolys rb4.1) rb4.2 with
      | none => none
      | some (a2, s3) => some (s3, allPolys a2)

/-- `BSP3.subtract(bsp)`. -/
def bspSubtract (rt : ℚ → ℚ) (fuel : ℕ) (pa pb : List ℕ) (s : PStore α) :
    Option (PStore α × List ℕ) :=
  let rca := cloneIds rt pa s
  let rcb := cloneIds rt pb rca.2
  match mkNode rt fuel rca.1 rcb.2 with
  | none => none
  | some (a0, s1) =>
    match mkNode rt fuel rcb.1 s1 with
    | none => none
    | some (b0, s2) =>
      let ra0 := invertNode a0 s2
      let ra := clipTo rt ra0.1 b0 ra0.2
      let rb := clipTo rt b0 ra.1 ra.2
      let rb2 := invertNode rb.1 rb.2
      let rb3 := clipTo rt rb2.1 ra.1 rb2.2
      let rb4 := invertNode rb3.1 rb3.2
      match buildNode rt fuel ra.1 (allPolys rb4.1) rb4.2 with
      | none => none
      | some (a2, s3) =>
        let ra2 := invertNode a2 s3
        some (ra2.2, allPolys ra2.1)

/-- `BSP3.intersect(bsp)`. -/
def bspIntersect (rt : ℚ → ℚ) (fuel : ℕ) (pa pb : List ℕ) (s : PStore α) :
    Option (PStore α × List ℕ) :=
  let rca := cloneIds rt pa s
  let rcb := cloneIds rt pb rca.2
  match mkNode rt fuel rca.1 rcb.2 with
  | none => none
  | some (a0, s1) =>
    match mkNode rt fuel rcb.1 s1 with
    | none => none
    | some (b0, s2) =>
      let ra0 := invertNode a0 s2
      let rb := clipTo rt b0 ra0.1 ra0.2
      let rb2 := invertNode rb.1 rb.2
      let ra := clipTo rt ra0.1 rb2.1 rb2.2
      let rb3 := clipTo rt rb2.1 ra.1 ra.2
      match buildNode rt fuel ra.1 (allPolys rb3.1) rb3.2 with
      | none => none
      | some (a2, s3) =>
        let ra2 := invertNode a2 s3
        some (ra2.2, allPolys ra2.1)

/-- The observable content of a polygon object for polygon-equivalence:
its vertex position sequence and its `shared` tag. -/
def polyKey (s : PStore α) (pid : ℕ) : List V3 × α :=
  ((s.recs pid).vertices, (s.recs pid).shared)

/-- The polygon objects allocated before a cutoff, with their records:
the observable content of the operand `BSP3`s before/after an operation. -/
def restrictStore (c : ℕ) (s : PStore α) : ℕ → Option (PRec α) :=
  fun i => if i < c then some (s.recs i) else none

/-- All ids in a list at or above a cutoff (fresh, clone-descended ids). -/
def ListGE (c : ℕ) (ids : List ℕ) : Prop := ∀ id2 ∈ ids, c ≤ id2

/-- All polygon ids reachable in a node tree at or above a cutoff. -/
def NodeGE (c : ℕ) : BNode → Prop
  | .mk _ fr bk polys =>
    ListGE c polys ∧
    (match fr with | some f => NodeGE c f | none => True) ∧
    (match bk with | some b => NodeGE c b | none => True)

/-- Store evolution that only allocates, or mutates at or above the
cutoff `c`: every record below `c` is preserved and `nxt` never
shrinks. -/
def Pres (c : ℕ) (s s2 : PStore α) : Prop :=
  s.nxt ≤ s2.nxt ∧ ∀ i, i < c → s2.recs i = s.recs i

/-! ## triangulation2.py: `enforce_delaunay`

The flip pass works on the triangle array only (the vertex list is read,
never written), so its state is a `List Tri` plus the FIFO edge queue. -/

/-- `(min(edge), max(edge))`. -/
def canonE (a b : ℕ) : ℕ × ℕ := (min a b, max a b)

/-- A queue entry `(edge, t_index_i, t_n_index_i)`. -/
structure QEnt where
  e : ℕ × ℕ
  t : ℕ
  s : ℕ
deriving DecidableEq, Repr

/-- `Triangulation2.__in_circle(t, d)` (the triangle must be existent on
every executed path; a `None` slot would be a Python `TypeError`). -/
def inCircleT (V : List V2) (tris : List Tri) (t : ℕ) (d : V2) : Posn :=
  let tri := getT tris t
  inCircle (V.getD (ovi tri.v0) default) (V.getD (ovi tri.v1) default)
    (V.getD (ovi tri.v2) default) d

/-- The `for j in range(3)` search for the slot of `edge_i` inside the
neighbour triangle.  Result `none` models a raised exception: either the
`TypeError` from comparing a `None` vertex slot, or the source's
`Exception('Source triangle index missing in neighbor triangle.')`. -/
def findSlotLoop (tj : Tri) (ei : ℕ × ℕ) : List ℕ → Option ℕ
  | [] => none
  | j :: rest =>
    match tj.vAt j, tj.vAt ((j + 1) % 3) with
    | some a, some b => if canonE a b = ei then some j else findSlotLoop tj ei rest
    | _, _ => none

/-- Find `t_n_index_j`. -/
def findEdgeSlot (tj : Tri) (ei : ℕ × ℕ) : Option ℕ :=
  findSlotLoop tj ei [0, 1, 2]

/-- "Fix triangle i1" / "Fix triangle j1": replace the first occurrence of
`oldN` in the neighbour list with `newN` (the source's `for`/`break`). -/
def rewireFirst (t : Tri) (oldN newN : ℕ) : Tri :=
  if t.n0 = oldN then { t with n0 := newN }
  else if t.n1 = oldN then { t with n1 := newN }
  else if t.n2 = oldN then { t with n2 := newN }
  else t

/-- Result of one iteration of the `while len(edge_queue) > 0` loop.
`err` is any raised Python exception (`TypeError` from using a `None`
vertex slot, `IndexError` from an out-of-range list index, or the
source's explicit `raise`). -/
inductive StepRes where
  | empty
  | err
  | next (tris : List Tri) (q : List QEnt)
deriving Repr

/-- One edge pushed at the end of a flip: `min`/`max` of two vertex slots
raise a `TypeError` when a slot is `None`. -/
def pushSet (cond : Prop) [Decidable cond] (a b : Option ℕ) (t s : ℕ) :
    Option (List QEnt) :=
  if cond then
    match a, b with
    | some x, some y => some [⟨canonE x y, t, s⟩]
    | _, _ => none
  else some []

/-- The flip proper ("At this point, we need to flip."): neighbour
lookups, the two rewires, the rebuilt `n` and `v` lists of triangles `i`
and `j`, and the four pushes.  `vI` is `v_index_i` (never looked up in
`self.vertices` by the source, so it stays an `Option` and is stored
as-is), `vJ` is `v_index_j` (already looked up). -/
def flipStep (tris : List Tri) (tI sI tJ sJ : ℕ) (e : ℕ × ℕ) (vJ : ℕ)
    (vI : Option ℕ) (q : List QEnt) : StepRes :=
  let ti := getT tris tI
  let tj := getT tris tJ
  let i1 := ti.nAt ((sI + 1) % 3)
  let i2 := ti.nAt ((sI + 2) % 3)
  let j1 := tj.nAt ((sJ + 1) % 3)
  let j2 := tj.nAt ((sJ + 2) % 3)
  if i1 < tris.length ∧ i2 < tris.length ∧ j1 < tris.length ∧ j2 < tris.length then
    let tris := setT tris i1 (rewireFirst (getT tris i1) tI tJ)
    let tris := setT tris j1 (rewireFirst (getT tris j1) tJ tI)
    let tris := setT tris tI
      { getT tris tI with n0 := tJ, n1 := i2, n2 := j1 }
    let tris := setT tris tJ
      { getT tris tJ with n0 := tI, n1 := j2, n2 := i1 }
    let tris :=
      if (getT tris tI).vAt sI = some e.1 then
        let tris := setT tris tI
          { getT tris tI with v0 := some vJ, v1 := vI, v2 := some e.1 }
        setT tris tJ
          { getT tris tJ with v0 := vI, v1 := some vJ, v2 := some e.2 }
      else
        let tris := setT tris tI
          { getT tris tI with v0 := some vJ, v1 := vI, v2 := some e.2 }
        setT tris tJ
          { getT tris tJ with v0 := vI, v1 := some vJ, v2 := some e.1 }
    let tiNew := getT tris tI
    let tjNew := getT tris tJ
    match pushSet ((getT tris i2).v2 ≠ none) tiNew.v1 tiNew.v2 tI 1,
        pushSet ((getT tris j1).v2 ≠ none) tiNew.v0 tiNew.v2 tI 2,
        pushSet ((getT tris j2).v2 ≠ none) tjNew.v1 tjNew.v2 tJ 1,
        pushSet ((getT tris i1).v2 ≠ none) tjNew.v0 tjNew.v2 tJ 2 with
    | some l1, some l2, some l3, some l4 => .next tris (q ++ l1 ++ l2 ++ l3 ++ l4)
    | _, _, _, _ => .err
  else .err

/-- One iteration of the flip loop of `enforce_delaunay`. -/
def edStep (V : List V2) (tris : List Tri) : List QEnt → StepRes
  | [] => .empty
  | ent :: q =>
    if ent.t < tris.length then
      let ti := getT tris ent.t
      if ti.v2 = none then .next tris q
      else
        match ti.vAt ent.s, ti.vAt ((ent.s + 1) % 3) with
        | some ea, some eb =>
          let edge_i := canonE ea eb
          if ent.e ≠ edge_i then .next tris q
          else
            let t_index_j := ti.nAt ent.s
            if t_index_j < tris.length then
              let tj := getT tris t_index_j
              match findEdgeSlot tj edge_i with
              | none => .err
              | some s_j =>
                let v_index_i := ti.vAt ((ent.s + 2) % 3)
                match tj.vAt ((s_j + 2) % 3) with
                | none => .err
                | some v_index_j =>
                  if v_index_j < V.length then
                    match ti.v0, ti.v1, ti.v2 with
                    | some a0, some a1, some a2 =>
                      if a0 < V.length ∧ a1 < V.length ∧ a2 < V.length then
                        if inCircleT V tris ent.t (V.getD v_index_j default) =
                            .INSIDE then
                          flipStep tris ent.t ent.s t_index_j s_j ent.e
                            v_index_j v_index_i q
                        else .next tris q
                      else .err
                    | _, _, _ => .err
                  else .err
            else .err
        | _, _ => .err
    else .err

/-- Outcome of the flip loop: normal completion (empty queue), a raised
exception, or running out of fuel (only the third does not correspond to
a terminated Python run). -/
inductive RunRes where
  | done (tris : List Tri)
  | errStop
  | fuelOut
deriving Repr, DecidableEq

/-- The flip loop with fuel. -/
def edRun (V : List V2) : ℕ → List Tri → List QEnt → RunRes
  | 0, _, _ => .fuelOut
  | fuel + 1, tris, q =>
    match edStep V tris q with
    | .empty => .done tris
    | .err => .errStop
    | .next tris2 q2 => edRun V fuel tris2 q2

/-- The initial-queue construction of `enforce_delaunay` ("Add every edge
in the triangulation to the queue"), deduplicated through `edge_set`;
`none` is a raised exception (`IndexError` on `self.triangles[t.n[n_i]]`
or `TypeError` from `min`/`max` over a `None` slot). -/
def initQLoop (tris : List Tri) :
    List (ℕ × ℕ) → List (ℕ × ℕ) → List QEnt → Option (List QEnt)
  | [], _, acc => some acc
  | (t_i, n_i) :: rest, eset, acc =>
    let t := getT tris t_i
    if t.v2 = none then initQLoop tris rest eset acc
    else if t.nAt n_i < tris.length then
      if (getT tris (t.nAt n_i)).v2 = none then initQLoop tris rest eset acc
      else
        match t.vAt n_i, t.vAt ((n_i + 1) % 3) with
        | some a, some b =>
          let edge := canonE a b
          if edge ∈ eset then initQLoop tris rest eset acc
          else initQLoop tris rest (edge :: eset) (acc ++ [⟨edge, t_i, n_i⟩])
        | _, _ => none
    else none

/-- The initial edge queue. -/
def initQ (tris : List Tri) : Option (List QEnt) :=
  initQLoop tris
    (((List.range tris.length).map (fun i => [(i, 0), (i, 1), (i, 2)])).flatten) [] []

/-- `Triangulation2.enforce_delaunay()` on a triangle array. -/
def enforceDelaunay (V : List V2) (fuel : ℕ) (tris : List Tri) : RunRes :=
  match initQ tris with
  | none => .errStop
  | some q => edRun V fuel tris q

/-! ## The triangulation invariants ("Properties Maintained" in the class
docstring of `Triangulation2`, and §3.3 of the specification). -/

/-- Vertex of a (necessarily `some`) slot, as a point. -/
def vposL (V : List V2) (o : Option ℕ) : V2 := V.getD (ovi o) default

/-- All vertex-index slots are populated as the triangle kind demands and
in range: `v0`, `v1` always hold indices `< n`; `v2` holds one exactly when
the triangle is existent. -/
def BoundsOk (n : ℕ) (tris : List Tri) : Prop :=
  ∀ i < tris.length,
    (∃ a < n, (getT tris i).v0 = some a) ∧
    (∃ b < n, (getT tris i).v1 = some b) ∧
    ((getT tris i).v2 ≠ none → ∃ c < n, (getT tris i).v2 = some c)

/-- Every existent triangle is counter-clockwise ("For every existent
triangle, its vertices are in counter-clockwise order"). -/
def CCWOk (V : List V2) (tris : List Tri) : Prop :=
  ∀ i < tris.length, (getT tris i).v2 ≠ none →
    side (vposL V (getT tris i).v0) (vposL V (getT tris i).v1)
      (vposL V (getT tris i).v2) = .LEFT

/-- Neighbour consistency seen from each existent triangle ("The i-th
neighbor of a triangle is its neighbor opposite the edge connecting its
i-th and (i+1 mod 3)-rd vertices"): the neighbour index is in range, an
existent neighbour holds the reversed directed edge at some slot and
points back through it, and a ghost neighbour holds the reversed directed
edge as `(v0, v1)` with `n0` pointing back. -/
def MutualOk (tris : List Tri) : Prop :=
  ∀ i < tris.length, (getT tris i).v2 ≠ none → ∀ s < 3,
    (getT tris i).nAt s < tris.length ∧
    (if (getT tris ((getT tris i).nAt s)).v2 = none then
      (getT tris ((getT tris i).nAt s)).v0 = (getT tris i).vAt ((s + 1) % 3) ∧
      (getT tris ((getT tris i).nAt s)).v1 = (getT tris i).vAt s ∧
      (getT tris ((getT tris i).nAt s)).n0 = i
    else
      ∃ s2 < 3,
        (getT tris ((getT tris i).nAt s)).vAt s2 = (getT tris i).vAt ((s + 1) % 3) ∧
        (getT tris ((getT tris i).nAt s)).vAt ((s2 + 1) % 3) = (getT tris i).vAt s ∧
        (getT tris ((getT tris i).nAt s)).nAt s2 = i)

/-- The triangulation invariant the flip pass maintains. -/
def WFT (V : List V2) (tris : List Tri) : Prop :=
  BoundsOk V.length tris ∧ CCWOk V tris ∧ MutualOk tris

/-- Directed-edge uniqueness among existent triangles (invariant 5 of
§3.3: every directed edge has exactly one triangle on each side); used for
the deduplicated initial queue. -/
def DirUnique (tris : List Tri) : Prop :=
  ∀ i < tris.length, (getT tris i).v2 ≠ none → ∀ s < 3,
    ∀ i2 < tris.length, (getT tris i2).v2 ≠ none → ∀ s2 < 3,
      (getT tris i).vAt s = (getT tris i2).vAt s2 →
      (getT tris i).vAt ((s + 1) % 3) = (getT tris i2).vAt ((s2 + 1) % 3) →
      i = i2 ∧ s = s2

/-- The local Delaunay criterion of an internal edge, phrased as the claim
does: for the edge at slot `s` of existent triangle `i` whose neighbour is
existent, the neighbour's apex (its vertex opposite the shared edge) is
not strictly inside the circumcircle of `i`'s counter-clockwise triple. -/
def DelaunayOk (V : List V2) (tris : List Tri) : Prop :=
  ∀ i < tris.length, (getT tris i).v2 ≠ none → ∀ s < 3,
    (getT tris ((getT tris i).nAt s)).v2 ≠ none →
    ∀ s2 < 3,
      (getT tris ((getT tris i).nAt s)).vAt s2 = (getT tris i).vAt ((s + 1) % 3) →
      (getT tris ((getT tris i).nAt s)).vAt ((s2 + 1) % 3) = (getT tris i).vAt s →
      inCircleT V tris i
        (vposL V ((getT tris ((getT tris i).nAt s)).vAt ((s2 + 2) % 3))) ≠ .INSIDE

/-- A queue entry still denotes the edge currently sitting at slot
`ent.s` of the existent triangle `ent.t` (the source's "We use this to
check if the edge still exists" test succeeds). -/
def LiveE (tris : List Tri) (ent : QEnt) : Prop :=
  (getT tris ent.t).v2 ≠ none ∧
  ∃ a b, (getT tris ent.t).vAt ent.s = some a ∧
    (getT tris ent.t).vAt ((ent.s + 1) % 3) = some b ∧ canonE a b = ent.e

/-- The queue entry `ent` answers for the edge pair at slot `k` of
triangle `t`: either directly, or from the neighbouring triangle's side
of the same undirected edge. -/
def Covers (tris : List Tri) (ent : QEnt) (t k : ℕ) : Prop :=
  (ent.t = t ∧ ent.s = k) ∨
  (ent.t = (getT tris t).nAt k ∧ (getT tris ent.t).nAt ent.s = t ∧
    (getT tris ent.t).vAt ent.s = (getT tris t).vAt ((k + 1) % 3) ∧
    (getT tris ent.t).vAt ((ent.s + 1) % 3) = (getT tris t).vAt k)

/-- The edge at slot `k` of existent triangle `t` is internal (existent
triangle on the other side, holding the reversed edge at slot `s2`) and
violates the local Delaunay criterion. -/
def BadPair (V : List V2) (tris : List Tri) (t k : ℕ) : Prop :=
  t < tris.length ∧ k < 3 ∧ (getT tris t).v2 ≠ none ∧
  (getT tris ((getT tris t).nAt k)).v2 ≠ none ∧
  ∃ s2 < 3,
    (getT tris ((getT tris t).nAt k)).vAt s2 = (getT tris t).vAt ((k + 1) % 3) ∧
    (getT tris ((getT tris t).nAt k)).vAt ((s2 + 1) % 3) = (getT tris t).vAt k ∧
    inCircleT V tris t
      (vposL V ((getT tris ((getT tris t).nAt k)).vAt ((s2 + 2) % 3))) = .INSIDE

/-- The queue covers every remaining local Delaunay violation: the loop
invariant that makes the empty queue certify the Delaunay property. -/
def Coverage (V : List V2) (tris : List Tri) (q : List QEnt) : Prop :=
  ∀ t k, BadPair V tris t k → ∃ ent ∈ q, LiveE tris ent ∧ Covers tris ent t k

/-! Machinery for the termination measure of the flip loop: the lifted
"paraboloid volume" `muMeas`, which each flip strictly decreases. -/

/-- The paraboloid lift `x² + y²` of a point. -/
def zLift (p : V2) : ℚ := p.x * p.x + p.y * p.y

/-- Contribution of one triangle to the measure: zero for ghosts, signed
area times summed lift for existent triangles. -/
def wTri (V : List V2) (t : Tri) : ℚ :=
  match t.v2 with
  | none => 0
  | some _ =>
    sideVal (vposL V t.v0) (vposL V t.v1) (vposL V t.v2) *
      (zLift (vposL V t.v0) + zLift (vposL V t.v1) + zLift (vposL V t.v2))

/-- The flip-loop termination measure. -/
def muMeas (V : List V2) (tris : List Tri) : ℚ :=
  (tris.map (wTri V)).sum

/-- Contribution of one abstract triangle slot (used to enumerate the
finitely many possible values of `muMeas` over a fixed vertex list and a
fixed triangle count). -/
def wAbs (V : List V2) (o : Option (Fin V.length × Fin V.length × Fin V.length)) : ℚ :=
  match o with
  | none => 0
  | some (a, b, c) =>
    sideVal (V.getD a.val default) (V.getD b.val default) (V.getD c.val default) *
      (zLift (V.getD a.val default) + zLift (V.getD b.val default) +
        zLift (V.getD c.val default))

/-- All values `muMeas` can take on a triangle array of length `T` over
the vertex list `V`: a finite set. -/
noncomputable def muSet (V : List V2) (T : ℕ) : Finset ℚ :=
  Finset.image
    (fun f : Fin T → Option (Fin V.length × Fin V.length × Fin V.length) =>
      ∑ k : Fin T, wAbs V (f k))
    Finset.univ

end FFG

namespace FFG

/-- C8. -/
theorem c8_coplanar_one_sided :
    (∀ (P : Plane3) (p : V3) (eps : ℚ),
      P.coplanar p eps = true ↔ P.normal.dot p - P.w < eps) ∧
    (∀ (P : Plane3) (p : V3) (eps : ℚ),
      P.distance p < 0 → 0 < eps → P.coplanar p eps = true) := by
  constructor
  · intro P p eps
    simp [Plane3.coplanar, Plane3.distance]
  · intro P p eps h he
    simp only [Plane3.coplanar, decide_eq_true_eq, Plane3.distance] at h ⊢
    linarith

/-- C2 failing input. -/
def stC2 : TriSt := ⟨[⟨⟨0, 0⟩, 0⟩, ⟨⟨0, 0⟩, 1⟩], [], [], []⟩

/-- C2. -/
theorem c2_dedup_keeps_equal_coords :
    (sortStep .VERTICAL stC2).1.vertices.length = 2 ∧
    ((sortStep .VERTICAL stC2).1.vertices.getD 0 default).pos =
      ((sortStep .VERTICAL stC2).1.vertices.getD 1 default).pos ∧
    (sortStep .VERTICAL stC2).1.indices = [some 0, some 1] := by decide

/-- C4 input. -/
def stC4 : TriSt := ⟨[⟨⟨0, 0⟩, 0⟩, ⟨⟨1, 0⟩, 1⟩], [], [], []⟩

/-- C4. -/
theorem c4_two_points (fuel : ℕ) :
    ∃ out, pyTriangulate .ARBITRARY .VERTICAL (fuel + 1) stC4 = some out ∧
      out.2 = none ∧
      out.1.triangles.length = 2 ∧
      (∀ t ∈ out.1.triangles, t.v2 = none) ∧
      (getT out.1.triangles 0).v0 = some 0 ∧ (getT out.1.triangles 0).v1 = some 1 ∧
      (getT out.1.triangles 1).v0 = some 1 ∧ (getT out.1.triangles 1).v1 = some 0 ∧
      (getT out.1.triangles 0).n0 = 1 ∧ (getT out.1.triangles 1).n0 = 0 := by
  refine ⟨_, rfl, ?_⟩
  decide

end FFG

namespace FFG

/-- C5 input. -/
def stC5 : TriSt := ⟨[⟨⟨0, 0⟩, 0⟩, ⟨⟨1, 0⟩, 1⟩, ⟨⟨0, 1⟩, 2⟩], [], [], []⟩

/-- The state of stC5 after `__sort`. -/
def stC5s : TriSt :=
  ⟨[⟨⟨0, 0⟩, 0⟩, ⟨⟨0, 1⟩, 2⟩, ⟨⟨1, 0⟩, 1⟩], [some 0, some 2, some 1], [], []⟩

/-- The state of stC5 after `triangulate`. -/
def stC5t : TriSt :=
  { stC5s with triangles :=
      [⟨some 0, some 2, some 1, 1, 2, 3⟩, ⟨some 2, some 0, none, 0, 3, 2⟩,
       ⟨some 1, some 2, none, 0, 1, 3⟩, ⟨some 0, some 1, none, 0, 2, 1⟩] }

theorem c5_sort_eval : sortStep .VERTICAL { stC5 with triangles := [] } = (stC5s, none) := by
  decide

theorem c5_side_eval : sideI stC5s 0 (0 + 1) (0 + 2) = .RIGHT := by
  simp only [sideI, side, sideVal, vpos, stC5s]
  norm_num

theorem c5_trivial_eval : trivialTriangulation stC5s 0 3 = (stC5t, (3, 1, 1, 2)) := by
  rw [trivialTriangulation, c5_side_eval]
  decide

theorem c5_run_eval (fuel : ℕ) :
    pyTriangulate .ARBITRARY .VERTICAL (fuel + 1) stC5 = some (stC5t, none) := by
  have hd : divConq (fuel + 1) stC5s 0 3 = some (stC5t, (3, 1, 1, 2)) := by
    rw [divConq]
    norm_num [c5_trivial_eval]
  show pyTriangulate .ARBITRARY .VERTICAL (fuel + 1) stC5 = some (stC5t, none)
  rw [pyTriangulate]
  simp only [show ¬(MergeMethod.ARBITRARY = .FLIP ∨ MergeMethod.ARBITRARY = .DELAUNAY) by decide,
    show ¬(CutMethod.VERTICAL = .HORIZONTAL ∨ CutMethod.VERTICAL = .ALTERNATING) by decide,
    if_false, ite_false, c5_sort_eval]
  simp only [show stC5s.vertices.length = 3 by decide]
  norm_num [hd]

/-- C5 counterexample. -/
theorem c5_counterexample :
    ∃ out, pyTriangulate .ARBITRARY .VERTICAL 1 stC5 = some out ∧
      (out.1.triangles.filter (fun t => t.v2 ≠ none)).length = 1 ∧
      ∀ t ∈ out.1.triangles, t.v2 ≠ none →
        ¬(t.v0 = some 0 ∧ t.v1 = some 1 ∧ t.v2 = some 2) :=
  ⟨(stC5t, none), c5_run_eval 0, by decide, by decide⟩

/-- C5 amended. -/
theorem c5_three_ccw_points (fuel : ℕ) :
    ∃ out, pyTriangulate .ARBITRARY .VERTICAL (fuel + 1) stC5 = some out ∧
      out.2 = none ∧
      out.1.triangles.length = 4 ∧
      (out.1.triangles.filter (fun t => t.v2 ≠ none)).length = 1 ∧
      (out.1.triangles.filter (fun t => t.v2 = none)).length = 3 ∧
      (getT out.1.triangles 0).v2 ≠ none ∧
      (getT out.1.triangles 0).v0 = some 0 ∧
      (getT out.1.triangles 0).v1 = some 2 ∧
      (getT out.1.triangles 0).v2 = some 1 ∧
      (∀ t ∈ out.1.triangles, t.v2 = none → t.n0 = 0) :=
  ⟨(stC5t, none), c5_run_eval fuel, by decide⟩

/-- helper: the segment-adjustment loop never raises NOT IMPLEMENTED. -/
theorem adjustSegments_ne_notImplemented (idxs : List (Option ℕ))
    (segs : List (ℕ × ℕ)) :
    adjustSegments idxs segs ≠ .error .notImplemented := by
  induction segs with
  | nil => simp [adjustSegments]
  | cons hd tl ih =>
    obtain ⟨a, b⟩ := hd
    simp only [adjustSegments]
    rcases ha : idxs.getD a none with _ | a2 <;> rcases hb : idxs.getD b none with _ | b2 <;>
      simp_all
    rcases h : adjustSegments idxs tl with e | r
    · cases e
      · exact absurd h ih
      · simp [h, bind, Except.bind]
    · simp [h, bind, Except.bind]

/-- helper: `__sort` with VERTICAL cuts never raises NOT IMPLEMENTED. -/
theorem sortStep_vertical_ne_notImplemented (st : TriSt) :
    (sortStep .VERTICAL st).2 ≠ some .notImplemented := by
  unfold sortStep
  split
  · simp
  · rcases stableSort (keyLe .VERTICAL) st.vertices.enum with _ | ⟨⟨i0, w0⟩, rest⟩
    · simp
    · dsimp only
      rw [if_neg (by decide)]
      split
      · simp
      case _ e heq =>
        intro hc
        simp only [Option.some_inj] at hc
        exact adjustSegments_ne_notImplemented _ _ (hc ▸ heq)

/-- helper: `triangulate` with an unsupported merge or cut method resets
the triangle array and raises NOT IMPLEMENTED. -/
theorem pyTriangulate_unsupported (mm : MergeMethod) (cm : CutMethod)
    (fuel : ℕ) (st : TriSt)
    (h : mm = .FLIP ∨ mm = .DELAUNAY ∨ cm = .HORIZONTAL ∨ cm = .ALTERNATING) :
    pyTriangulate mm cm fuel st =
      some ({ st with triangles := [] }, some .notImplemented) := by
  rcases h with h | h | h | h <;> subst h <;> (try cases mm) <;> (try cases cm) <;> rfl

/-- C6. -/
theorem c6_unsupported_modes (mm : MergeMethod) (cm : CutMethod) (fuel : ℕ)
    (st : TriSt) :
    (∃ out, pyTriangulate mm cm fuel st = some out ∧ out.2 = some .notImplemented) ↔
      (mm = .FLIP ∨ mm = .DELAUNAY ∨ cm = .HORIZONTAL ∨ cm = .ALTERNATING) := by
  constructor
  · rintro ⟨out, hout, hni⟩
    by_contra hbad
    push_neg at hbad
    obtain ⟨h1, h2, h3, h4⟩ := hbad
    have hmm : mm = .ARBITRARY := by cases mm <;> simp_all
    have hcm : cm = .VERTICAL := by cases cm <;> simp_all
    subst hmm; subst hcm
    rw [pyTriangulate, if_neg (by decide), if_neg (by decide)] at hout
    rcases hs : sortStep .VERTICAL { st with triangles := [] } with ⟨st2, e⟩
    rw [hs] at hout
    rcases e with _ | e
    · dsimp only at hout
      split at hout
      · rw [Option.some_inj] at hout
        subst hout
        simp at hni
      · split at hout
        · exact absurd hout (by simp)
        · rw [Option.some_inj] at hout
          subst hout
          simp at hni
    · dsimp only at hout
      rw [Option.some_inj] at hout
      subst hout
      have hne := sortStep_vertical_ne_notImplemented { st with triangles := [] }
      rw [hs] at hne
      exact hne hni
  · intro h
    exact ⟨_, pyTriangulate_unsupported mm cm fuel st h, rfl⟩

/-- C9. -/
theorem c9_reset_on_unsupported (mm : MergeMethod) (cm : CutMethod) (fuel : ℕ)
    (st : TriSt)
    (h : mm = .FLIP ∨ mm = .DELAUNAY ∨ cm = .HORIZONTAL ∨ cm = .ALTERNATING) :
    pyTriangulate mm cm fuel st =
      some ({ st with triangles := [] }, some .notImplemented) ∧
    ({ st with triangles := [] } : TriSt).triangles = [] :=
  ⟨pyTriangulate_unsupported mm cm fuel st h, rfl⟩

/-- C9 witness state: a previously computed triangulation that is lost. -/
def stC9 : TriSt := ⟨[], [], [], [⟨some 0, some 1, none, 1, 1, 1⟩]⟩

/-- C9 witness. -/
theorem c9_witness :
    (MergeMethod.FLIP = .FLIP ∨ MergeMethod.FLIP = .DELAUNAY ∨
      CutMethod.VERTICAL = .HORIZONTAL ∨ CutMethod.VERTICAL = .ALTERNATING) ∧
    (pyTriangulate .FLIP .VERTICAL 0 stC9 =
        some ({ stC9 with triangles := [] }, some .notImplemented) ∧
      ({ stC9 with triangles := [] } : TriSt).triangles = []) :=
  ⟨Or.inl rfl, c9_reset_on_unsupported .FLIP .VERTICAL 0 stC9 (Or.inl rfl)⟩

/-- C8 witness: a point far behind the plane is reported coplanar. -/
theorem c8_coplanar_one_sided_witness :
    ((⟨⟨1, 0, 0⟩, 0⟩ : Plane3).distance ⟨-5, 0, 0⟩ < 0 ∧ (0 : ℚ) < 1) ∧
    (⟨⟨1, 0, 0⟩, 0⟩ : Plane3).coplanar ⟨-5, 0, 0⟩ 1 = true :=
  ⟨⟨by norm_num [Plane3.distance, V3.dot], by norm_num⟩,
    c8_coplanar_one_sided.2 _ _ _ (by norm_num [Plane3.distance, V3.dot]) (by norm_num)⟩

theorem mkPStore_nxt (n : ℕ) (f : ℕ → PRec α) : (PStore.mk n f).nxt = n := rfl

theorem mkPStore_recs (n : ℕ) (f : ℕ → PRec α) : (PStore.mk n f).recs = f := rfl

theorem range_map_add_succ (c n : ℕ) :
    (List.range (n + 1)).map (fun k => c + k) =
      c :: (List.range n).map (fun k => c + 1 + k) := by
  rw [List.range_succ_eq_map]
  simp only [List.map_cons, Nat.add_zero, List.map_map]
  refine congrArg _ ?_
  apply List.map_congr_left
  intro k _
  simp only [Function.comp_apply]
  omega

/-- What cloning does to the store: fresh consecutive ids, old records
untouched, clone records sharing vertices and tag with the originals. -/
theorem cloneIds_spec (rt : ℚ → ℚ) (pa : List ℕ) :
    ∀ (s : PStore α), (∀ id2 ∈ pa, id2 < s.nxt) →
      (cloneIds rt pa s).1 = (List.range pa.length).map (fun k => s.nxt + k) ∧
      (cloneIds rt pa s).2.nxt = s.nxt + pa.length ∧
      (∀ i, i < s.nxt → (cloneIds rt pa s).2.recs i = s.recs i) ∧
      (∀ k, k < pa.length →
        ((cloneIds rt pa s).2.recs (s.nxt + k)).vertices =
          (s.recs (pa.getD k 0)).vertices ∧
        ((cloneIds rt pa s).2.recs (s.nxt + k)).shared =
          (s.recs (pa.getD k 0)).shared) := by
  induction pa with
  | nil => intro s _; simp [cloneIds]
  | cons p rest ih =>
    intro s hv
    simp only [cloneIds, clonePoly, allocPoly]
    obtain ⟨ih1, ih2, ih3, ih4⟩ := ih
      ⟨s.nxt + 1, fun i => if i = s.nxt then
        ⟨(s.recs p).vertices, (s.recs p).shared,
          planeFromPoints rt ((s.recs p).vertices.getD 0 default)
            ((s.recs p).vertices.getD 1 default)
            ((s.recs p).vertices.getD 2 default)⟩ else s.recs i⟩
      (by
        intro id2 hid2
        have := hv id2 (List.mem_cons_of_mem p hid2)
        simp only [mkPStore_nxt]
        omega)
    simp only [mkPStore_nxt, mkPStore_recs] at ih1 ih2 ih3 ih4
    refine ⟨?_, ?_, ?_, ?_⟩
    · rw [ih1, List.length_cons, range_map_add_succ]
    · rw [ih2, List.length_cons]
      omega
    · intro i hi
      rw [ih3 i (by omega)]
      rw [if_neg (by omega)]
    · intro k hk
      match k with
      | 0 =>
        have h4 := ih3 s.nxt (by omega)
        rw [show s.nxt + 0 = s.nxt by omega, h4, if_pos rfl]
        simp
      | k + 1 =>
        have hklt : k < rest.length := by simpa using hk
        have h4 := ih4 k hklt
        have hmem : rest.getD k 0 ∈ rest := by
          rw [List.getD_eq_getElem _ _ hklt]
          exact List.getElem_mem hklt
        have hne : rest.getD k 0 ≠ s.nxt := by
          have := hv _ (List.mem_cons_of_mem p hmem)
          omega
        rw [show s.nxt + (k + 1) = s.nxt + 1 + k by omega]
        rw [h4.1, h4.2, if_neg hne]
        simp

/-- What in-place flipping does to the store: ids outside the list are
untouched; with distinct ids, each listed record gets its vertex ring
reversed and keeps its tag. -/
theorem flipIds_spec (ids : List ℕ) :
    ∀ (s : PStore α),
      (flipIds ids s).nxt = s.nxt ∧
      (∀ i, i ∉ ids → (flipIds ids s).recs i = s.recs i) ∧
      (ids.Nodup →
        ∀ k, k < ids.length →
          ((flipIds ids s).recs (ids.getD k 0)).vertices =
            (s.recs (ids.getD k 0)).vertices.reverse ∧
          ((flipIds ids s).recs (ids.getD k 0)).shared =
            (s.recs (ids.getD k 0)).shared) := by
  induction ids with
  | nil => intro s; simp [flipIds]
  | cons p rest ih =>
    intro s
    simp only [flipIds]
    obtain ⟨ih1, ih2, ih3⟩ := ih (flipPoly p s)
    refine ⟨?_, ?_, ?_⟩
    · rw [ih1]
      rfl
    · intro i hi
      rw [ih2 i (fun hmem => hi (List.mem_cons_of_mem p hmem))]
      simp only [flipPoly, mkPStore_recs]
      rw [if_neg (by intro hc; exact hi (hc ▸ List.mem_cons_self p rest))]
    · intro hnd k hk
      have hpnr : p ∉ rest := (List.nodup_cons.mp hnd).1
      have hndr : rest.Nodup := (List.nodup_cons.mp hnd).2
      match k with
      | 0 =>
        simp only [List.getD_cons_zero]
        rw [ih2 p hpnr]
        simp [flipPoly]
      | k + 1 =>
        have hklt : k < rest.length := by simpa using hk
        have h3 := ih3 hndr k hklt
        simp only [List.getD_cons_succ]
        have hmem : rest.getD k 0 ∈ rest := by
          rw [List.getD_eq_getElem _ _ hklt]
          exact List.getElem_mem hklt
        have hne : rest.getD k 0 ≠ p := fun hc => hpnr (hc ▸ hmem)
        rw [h3.1, h3.2]
        simp only [flipPoly, mkPStore_recs]
        rw [if_neg hne]
        exact ⟨rfl, rfl⟩

/-- `BSP3.inverse` observably: a fresh polygon list of the same length
whose k-th polygon has the k-th original's vertex ring reversed and its
tag; pre-existing objects untouched. -/
theorem bspInverse_spec (rt : ℚ → ℚ) (pa : List ℕ) (s : PStore α)
    (hv : ∀ id2 ∈ pa, id2 < s.nxt) :
    (bspInverse rt pa s).1.length = pa.length ∧
    (∀ id2 ∈ (bspInverse rt pa s).1, id2 < (bspInverse rt pa s).2.nxt) ∧
    (∀ i, i < s.nxt → (bspInverse rt pa s).2.recs i = s.recs i) ∧
    (∀ k, k < pa.length →
      ((bspInverse rt pa s).2.recs ((bspInverse rt pa s).1.getD k 0)).vertices =
        (s.recs (pa.getD k 0)).vertices.reverse ∧
      ((bspInverse rt pa s).2.recs ((bspInverse rt pa s).1.getD k 0)).shared =
        (s.recs (pa.getD k 0)).shared) := by
  obtain ⟨hc1, hc2, hc3, hc4⟩ := cloneIds_spec rt pa s hv
  simp only [bspInverse]
  obtain ⟨hf1, hf2, hf3⟩ := flipIds_spec (cloneIds rt pa s).1 (cloneIds rt pa s).2
  have hnd : (cloneIds rt pa s).1.Nodup := by
    rw [hc1]
    exact (List.nodup_range _).map (fun a b => by omega)
  have hlen : (cloneIds rt pa s).1.length = pa.length := by
    rw [hc1, List.length_map, List.length_range]
  have hgetD : ∀ k, k < pa.length → (cloneIds rt pa s).1.getD k 0 = s.nxt + k := by
    intro k hk
    rw [hc1, List.getD_eq_getElem _ _
      (by simpa [List.length_map, List.length_range] using hk)]
    simp
  refine ⟨hlen, ?_, ?_, ?_⟩
  · intro id2 hid2
    rw [hc1] at hid2
    obtain ⟨k, hk, rfl⟩ := List.mem_map.mp hid2
    have hk2 := List.mem_range.mp hk
    rw [hf1, hc2]
    omega
  · intro i hi
    rw [hf2 i, hc3 i hi]
    rw [hc1]
    intro hmem
    obtain ⟨k, hk, hkv⟩ := List.mem_map.mp hmem
    omega
  · intro k hk
    have h3 := hf3 hnd k (by omega)
    rw [hgetD k hk] at h3
    obtain ⟨hv4, hs4⟩ := hc4 k hk
    rw [hgetD k hk]
    exact ⟨by rw [h3.1, hv4], by rw [h3.2, hs4]⟩

/-- C7. -/
theorem c7_inverse_involutive (rt : ℚ → ℚ) {α : Type} (s : PStore α)
    (pa : List ℕ) (hv : ∀ id2 ∈ pa, id2 < s.nxt) :
    ((((bspInverse rt (bspInverse rt pa s).1 (bspInverse rt pa s).2).1.map
        (polyKey (bspInverse rt (bspInverse rt pa s).1 (bspInverse rt pa s).2).2)) :
        List (List V3 × α)) : Multiset (List V3 × α)) =
      ((pa.map (polyKey s) : List (List V3 × α)) : Multiset (List V3 × α)) := by
  obtain ⟨h1len, h1v, h1fr, h1rec⟩ := bspInverse_spec rt pa s hv
  obtain ⟨h2len, h2v, h2fr, h2rec⟩ :=
    bspInverse_spec rt (bspInverse rt pa s).1 (bspInverse rt pa s).2 h1v
  refine congrArg _ ?_
  apply List.ext_getElem
  · simp only [List.length_map]
    omega
  · intro k hk1 hk2
    simp only [List.length_map] at hk1 hk2
    have hk2lt : k <
        (bspInverse rt (bspInverse rt pa s).1 (bspInverse rt pa s).2).1.length := by
      omega
    simp only [List.getElem_map, polyKey]
    rw [← List.getD_eq_getElem _ 0 hk2lt, ← List.getD_eq_getElem _ 0 hk2]
    have e2 := h2rec k (by omega)
    have e1 := h1rec k hk2
    rw [e2.1, e2.2, e1.1, e1.2, List.reverse_reverse]


/-- C7 witness store: one polygon object. -/
def stC7 : PStore ℕ :=
  ⟨1, fun _ => ⟨[⟨0, 0, 0⟩, ⟨1, 0, 0⟩, ⟨0, 1, 0⟩], 7, ⟨⟨0, 0, 1⟩, 0⟩⟩⟩

/-- C7 witness. -/
theorem c7_inverse_involutive_witness :
    (∀ id2 ∈ [0], id2 < stC7.nxt) ∧
    ((((bspInverse (fun q => q) (bspInverse (fun q => q) [0] stC7).1
          (bspInverse (fun q => q) [0] stC7).2).1.map
        (polyKey (bspInverse (fun q => q) (bspInverse (fun q => q) [0] stC7).1
          (bspInverse (fun q => q) [0] stC7).2).2)) :
        List (List V3 × ℕ)) : Multiset (List V3 × ℕ)) =
      (([0].map (polyKey stC7) : List (List V3 × ℕ)) : Multiset (List V3 × ℕ)) :=
  ⟨by decide, c7_inverse_involutive (fun q => q) stC7 [0] (by decide)⟩

end FFG

namespace FFG

theorem presRefl (c : ℕ) (s : PStore α) : Pres c s s := ⟨le_rfl, fun _ _ => rfl⟩

theorem presTrans {c : ℕ} {s1 s2 s3 : PStore α}
    (h1 : Pres c s1 s2) (h2 : Pres c s2 s3) : Pres c s1 s3 :=
  ⟨le_trans h1.1 h2.1, fun i hi => (h2.2 i hi).trans (h1.2 i hi)⟩

theorem allocPoly_frame (rt : ℚ → ℚ) (verts : List V3) (sh : α)
    (s : PStore α) (c : ℕ) (hc : c ≤ s.nxt) :
    Pres c s (allocPoly rt verts sh s).2 ∧ c ≤ (allocPoly rt verts sh s).1 ∧
    (allocPoly rt verts sh s).2.nxt = s.nxt + 1 := by
  refine ⟨⟨by simp [allocPoly, mkPStore_nxt], ?_⟩, hc, rfl⟩
  intro i hi
  simp only [allocPoly, mkPStore_recs]
  rw [if_neg (by omega)]

theorem cloneIds_frame (rt : ℚ → ℚ) (ids : List ℕ) :
    ∀ (s : PStore α) (c : ℕ), c ≤ s.nxt →
      Pres c s (cloneIds rt ids s).2 ∧ ListGE c (cloneIds rt ids s).1 := by
  induction ids with
  | nil => intro s c hc; exact ⟨presRefl c s, fun _ h => absurd h (List.not_mem_nil _)⟩
  | cons p rest ih =>
    intro s c hc
    simp only [cloneIds]
    obtain ⟨h1, h2, h3⟩ := allocPoly_frame rt (s.recs p).vertices (s.recs p).shared s c hc
    obtain ⟨ih1, ih2⟩ := ih (clonePoly rt p s).2 c (le_trans hc h1.1)
    refine ⟨presTrans h1 ih1, ?_⟩
    intro id2 hid2
    rcases List.mem_cons.mp hid2 with h | h
    · subst h; exact h2
    · exact ih2 id2 h

theorem flipPoly_frame (pid : ℕ) (s : PStore α) (c : ℕ) (hp : c ≤ pid) :
    Pres c s (flipPoly pid s) := by
  refine ⟨le_rfl, ?_⟩
  intro i hi
  simp only [flipPoly, mkPStore_recs]
  rw [if_neg (by omega)]

theorem flipIds_frame (ids : List ℕ) :
    ∀ (s : PStore α) (c : ℕ), ListGE c ids → Pres c s (flipIds ids s) := by
  induction ids with
  | nil => intro s c _; exact presRefl c s
  | cons p rest ih =>
    intro s c hge
    simp only [flipIds]
    exact presTrans (flipPoly_frame p s c (hge p (List.mem_cons_self p rest)))
      (ih _ c (fun id2 h => hge id2 (List.mem_cons_of_mem p h)))

theorem splitPolygon_frame (rt : ℚ → ℚ) (p : BSPPlane3) (pid : ℕ)
    (s : PStore α) (c : ℕ) (hc : c ≤ s.nxt) (hp : c ≤ pid) :
    Pres c s (splitPolygon rt p pid s).store ∧
    ListGE c (splitPolygon rt p pid s).cf ∧
    ListGE c (splitPolygon rt p pid s).cb ∧
    ListGE c (splitPolygon rt p pid s).fr ∧
    ListGE c (splitPolygon rt p pid s).bk := by
  have hsingle : ListGE c [pid] := by
    intro x hx
    rcases List.mem_singleton.mp hx with rfl
    exact hp
  have hnil : ListGE c ([] : List ℕ) := fun _ h => absurd h (List.not_mem_nil _)
  unfold splitPolygon
  dsimp only
  split_ifs
  · exact ⟨presRefl c s, hsingle, hnil, hnil, hnil⟩
  · exact ⟨presRefl c s, hnil, hsingle, hnil, hnil⟩
  · exact ⟨presRefl c s, hnil, hnil, hsingle, hnil⟩
  · exact ⟨presRefl c s, hnil, hnil, hnil, hsingle⟩
  · -- spanning, both pieces kept: two allocations
    obtain ⟨hp1, hq1, hn1⟩ := allocPoly_frame rt
      (spanWalk p (s.recs pid).vertices (vertexTypes p (s.recs pid).vertices)
        (List.range (s.recs pid).vertices.length)).1 (s.recs pid).shared s c hc
    obtain ⟨hp2, hq2, hn2⟩ := allocPoly_frame rt
      (spanWalk p (s.recs pid).vertices (vertexTypes p (s.recs pid).vertices)
        (List.range (s.recs pid).vertices.length)).2 (s.recs pid).shared _ c
      (le_trans hc hp1.1)
    refine ⟨presTrans hp1 hp2, hnil, hnil, ?_, ?_⟩
    · intro x hx; rcases List.mem_singleton.mp hx with rfl; exact hq1
    · intro x hx; rcases List.mem_singleton.mp hx with rfl; exact hq2
  · -- spanning, only the back piece kept
    obtain ⟨hp2, hq2, hn2⟩ := allocPoly_frame rt
      (spanWalk p (s.recs pid).vertices (vertexTypes p (s.recs pid).vertices)
        (List.range (s.recs pid).vertices.length)).2 (s.recs pid).shared s c hc
    refine ⟨hp2, hnil, hnil, hnil, ?_⟩
    intro x hx; rcases List.mem_singleton.mp hx with rfl; exact hq2
  · -- spanning, only the front piece kept
    obtain ⟨hp1, hq1, hn1⟩ := allocPoly_frame rt
      (spanWalk p (s.recs pid).vertices (vertexTypes p (s.recs pid).vertices)
        (List.range (s.recs pid).vertices.length)).1 (s.recs pid).shared s c hc
    refine ⟨hp1, hnil, hnil, ?_, hnil⟩
    intro x hx; rcases List.mem_singleton.mp hx with rfl; exact hq1
  · exact ⟨presRefl c s, hnil, hnil, hnil, hnil⟩

theorem nodeGE_empty (c : ℕ) : NodeGE c emptyNode := by
  refine ⟨fun _ h => absurd h (List.not_mem_nil _), ?_, ?_⟩ <;> simp [emptyNode]

theorem listGE_append {c : ℕ} {l1 l2 : List ℕ} (h1 : ListGE c l1)
    (h2 : ListGE c l2) : ListGE c (l1 ++ l2) := by
  intro x hx
  rcases List.mem_append.mp hx with h | h
  · exact h1 x h
  · exact h2 x h

theorem clipSplitFold_frame (rt : ℚ → ℚ) (p : BSPPlane3) (ids : List ℕ) :
    ∀ (s : PStore α) (c : ℕ), c ≤ s.nxt → ListGE c ids →
      Pres c s (clipSplitFold rt p ids s).1 ∧
      ListGE c (clipSplitFold rt p ids s).2.1 ∧
      ListGE c (clipSplitFold rt p ids s).2.2 := by
  induction ids with
  | nil =>
    intro s c hc _
    exact ⟨presRefl c s, fun _ h => absurd h (List.not_mem_nil _),
      fun _ h => absurd h (List.not_mem_nil _)⟩
  | cons pid rest ih =>
    intro s c hc hge
    simp only [clipSplitFold]
    obtain ⟨h1, hcf, hcb, hfr, hbk⟩ := splitPolygon_frame rt p pid s c hc
      (hge pid (List.mem_cons_self pid rest))
    obtain ⟨ih1, ihf, ihb⟩ := ih (splitPolygon rt p pid s).store c
      (le_trans hc h1.1) (fun x hx => hge x (List.mem_cons_of_mem pid hx))
    exact ⟨presTrans h1 ih1, listGE_append (listGE_append hcf hfr) ihf,
      listGE_append (listGE_append hcb hbk) ihb⟩

theorem buildSplitFold_frame (rt : ℚ → ℚ) (p : BSPPlane3) (ids : List ℕ) :
    ∀ (s : PStore α) (c : ℕ), c ≤ s.nxt → ListGE c ids →
      Pres c s (buildSplitFold rt p ids s).1 ∧
      ListGE c (buildSplitFold rt p ids s).2.1 ∧
      ListGE c (buildSplitFold rt p ids s).2.2.1 ∧
      ListGE c (buildSplitFold rt p ids s).2.2.2 := by
  induction ids with
  | nil =>
    intro s c hc _
    refine ⟨presRefl c s, ?_, ?_, ?_⟩ <;>
      exact fun _ h => absurd h (List.not_mem_nil _)
  | cons pid rest ih =>
    intro s c hc hge
    simp only [buildSplitFold]
    obtain ⟨h1, hcf, hcb, hfr, hbk⟩ := splitPolygon_frame rt p pid s c hc
      (hge pid (List.mem_cons_self pid rest))
    obtain ⟨ih1, ihc, ihf, ihb⟩ := ih (splitPolygon rt p pid s).store c
      (le_trans hc h1.1) (fun x hx => hge x (List.mem_cons_of_mem pid hx))
    exact ⟨presTrans h1 ih1, listGE_append (listGE_append hcf hcb) ihc,
      listGE_append hfr ihf, listGE_append hbk ihb⟩

/-- Depth of a node tree, for strong induction over trees. -/
def ndepth : BNode → ℕ
  | .mk _ fr bk _ =>
    1 + (match fr with | some f => ndepth f | none => 0)
      + (match bk with | some b => ndepth b | none => 0)

theorem ndepth_front {pl : Option BSPPlane3} {f : BNode} {bk : Option BNode}
    {polys : List ℕ} : ndepth f < ndepth (.mk pl (some f) bk polys) := by
  cases bk <;> simp [ndepth] <;> omega

theorem ndepth_back {pl : Option BSPPlane3} {fr : Option BNode} {b : BNode}
    {polys : List ℕ} : ndepth b < ndepth (.mk pl fr (some b) polys) := by
  cases fr <;> simp [ndepth] <;> omega

theorem clipPolys_frame (rt : ℚ → ℚ) :
    ∀ (d : ℕ) (node : BNode), ndepth node ≤ d →
      ∀ (ids : List ℕ) (s : PStore α) (c : ℕ), c ≤ s.nxt → ListGE c ids →
        Pres c s (clipPolys rt node ids s).1 ∧
        ListGE c (clipPolys rt node ids s).2 := by
  intro d
  induction d with
  | zero =>
    intro node hd
    exfalso
    cases node with
    | mk pl fr bk polys => cases fr <;> cases bk <;> simp [ndepth] at hd
  | succ d ih =>
    rintro ⟨pl, fr, bk, polys⟩ hd ids s c hc hge
    cases pl with
    | none => exact ⟨presRefl c s, hge⟩
    | some p =>
      obtain ⟨h1, hgf, hgb⟩ := clipSplitFold_frame rt p ids s c hc hge
      have hnil : ListGE c ([] : List ℕ) := fun _ h => absurd h (List.not_mem_nil _)
      cases fr with
      | none =>
        cases bk with
        | none =>
          simp only [clipPolys]
          exact ⟨h1, listGE_append hgf hnil⟩
        | some b =>
          simp only [clipPolys]
          obtain ⟨h3, hg3⟩ := ih b (by have := @ndepth_back (some p) none b polys; omega)
            (clipSplitFold rt p ids s).2.2 (clipSplitFold rt p ids s).1 c
            (le_trans hc h1.1) hgb
          exact ⟨presTrans h1 h3, listGE_append hgf hg3⟩
      | some f =>
        obtain ⟨h2, hg2⟩ := ih f (by have := @ndepth_front (some p) f bk polys; omega)
          (clipSplitFold rt p ids s).2.1 (clipSplitFold rt p ids s).1 c
          (le_trans hc h1.1) hgf
        cases bk with
        | none =>
          simp only [clipPolys]
          exact ⟨presTrans h1 h2, listGE_append hg2 hnil⟩
        | some b =>
          simp only [clipPolys]
          obtain ⟨h3, hg3⟩ := ih b (by have := @ndepth_back (some p) (some f) b polys; omega)
            (clipSplitFold rt p ids s).2.2
            (clipPolys rt f (clipSplitFold rt p ids s).2.1 (clipSplitFold rt p ids s).1).1 c
            (le_trans (le_trans hc h1.1) h2.1) hgb
          exact ⟨presTrans h1 (presTrans h2 h3), listGE_append hg2 hg3⟩

theorem clipTo_frame (rt : ℚ → ℚ) :
    ∀ (d : ℕ) (node : BNode), ndepth node ≤ d →
      ∀ (other : BNode) (s : PStore α) (c : ℕ), c ≤ s.nxt → NodeGE c node →
        Pres c s (clipTo rt node other s).2 ∧
        NodeGE c (clipTo rt node other s).1 := by
  intro d
  induction d with
  | zero =>
    intro node hd
    exfalso
    cases node with
    | mk pl fr bk polys => cases fr <;> cases bk <;> simp [ndepth] at hd
  | succ d ih =>
    rintro ⟨pl, fr, bk, polys⟩ hd other s c hc hge
    rw [NodeGE.eq_def] at hge
    obtain ⟨hgp, hgf, hgb⟩ := hge
    obtain ⟨h1, hg1⟩ := clipPolys_frame rt (ndepth other) other le_rfl polys s c hc hgp
    cases fr with
    | none =>
      cases bk with
      | none =>
        simp only [clipTo]
        exact ⟨h1, hg1, trivial, trivial⟩
      | some b =>
        simp only [clipTo]
        obtain ⟨h3, hg3⟩ := ih b (by have := @ndepth_back pl none b polys; omega)
          other (clipPolys rt other polys s).1 c (le_trans hc h1.1) hgb
        exact ⟨presTrans h1 h3, hg1, trivial, hg3⟩
    | some f =>
      obtain ⟨h2, hg2⟩ := ih f (by have := @ndepth_front pl f bk polys; omega)
        other (clipPolys rt other polys s).1 c (le_trans hc h1.1) hgf
      cases bk with
      | none =>
        simp only [clipTo]
        exact ⟨presTrans h1 h2, hg1, hg2, trivial⟩
      | some b =>
        simp only [clipTo]
        obtain ⟨h3, hg3⟩ := ih b (by have := @ndepth_back pl (some f) b polys; omega)
          other (clipTo rt f other (clipPolys rt other polys s).1).2 c
          (le_trans (le_trans hc h1.1) h2.1) hgb
        exact ⟨presTrans h1 (presTrans h2 h3), hg1, hg2, hg3⟩

theorem invertNode_frame :
    ∀ (d : ℕ) (node : BNode), ndepth node ≤ d →
      ∀ (s : PStore α) (c : ℕ), NodeGE c node →
        Pres c s (invertNode node s).2 ∧ NodeGE c (invertNode node s).1 := by
  intro d
  induction d with
  | zero =>
    intro node hd
    exfalso
    cases node with
    | mk pl fr bk polys => cases fr <;> cases bk <;> simp [ndepth] at hd
  | succ d ih =>
    rintro ⟨pl, fr, bk, polys⟩ hd s c hge
    rw [NodeGE.eq_def] at hge
    obtain ⟨hgp, hgf, hgb⟩ := hge
    have h1 : Pres c s (flipIds polys s) := flipIds_frame polys s c hgp
    cases fr with
    | none =>
      cases bk with
      | none =>
        simp only [invertNode]
        exact ⟨h1, hgp, trivial, trivial⟩
      | some b =>
        simp only [invertNode]
        obtain ⟨h3, hg3⟩ := ih b (by have := @ndepth_back pl none b polys; omega)
          (flipIds polys s) c hgb
        exact ⟨presTrans h1 h3, hgp, hg3, trivial⟩
    | some f =>
      obtain ⟨h2, hg2⟩ := ih f (by have := @ndepth_front pl f bk polys; omega)
        (flipIds polys s) c hgf
      cases bk with
      | none =>
        simp only [invertNode]
        exact ⟨presTrans h1 h2, hgp, trivial, hg2⟩
      | some b =>
        simp only [invertNode]
        obtain ⟨h3, hg3⟩ := ih b (by have := @ndepth_back pl (some f) b polys; omega)
          (invertNode f (flipIds polys s)).2 c hgb
        exact ⟨presTrans h1 (presTrans h2 h3), hgp, hg3, hg2⟩

theorem allPolys_GE :
    ∀ (d : ℕ) (node : BNode), ndepth node ≤ d →
      ∀ (c : ℕ), NodeGE c node → ListGE c (allPolys node) := by
  intro d
  induction d with
  | zero =>
    intro node hd
    exfalso
    cases node with
    | mk pl fr bk polys => cases fr <;> cases bk <;> simp [ndepth] at hd
  | succ d ih =>
    rintro ⟨pl, fr, bk, polys⟩ hd c hge
    rw [NodeGE.eq_def] at hge
    obtain ⟨hgp, hgf, hgb⟩ := hge
    have hnil : ListGE c ([] : List ℕ) := fun _ h => absurd h (List.not_mem_nil _)
    cases fr with
    | none =>
      cases bk with
      | none => exact listGE_append (listGE_append hgp hnil) hnil
      | some b =>
        exact listGE_append (listGE_append hgp hnil)
          (ih b (by have := @ndepth_back pl none b polys; omega) c hgb)
    | some f =>
      have h2 := ih f (by have := @ndepth_front pl f bk polys; omega) c hgf
      cases bk with
      | none => exact listGE_append (listGE_append hgp h2) hnil
      | some b =>
        exact listGE_append (listGE_append hgp h2)
          (ih b (by have := @ndepth_back pl (some f) b polys; omega) c hgb)

theorem buildNode_frame (rt : ℚ → ℚ) :
    ∀ (fuel : ℕ) (node : BNode) (ids : List ℕ) (s : PStore α) (c : ℕ),
      c ≤ s.nxt → NodeGE c node → ListGE c ids →
      ∀ (nd2 : BNode) (s2 : PStore α),
        buildNode rt fuel node ids s = some (nd2, s2) →
        Pres c s s2 ∧ NodeGE c nd2 := by
  intro fuel
  induction fuel with
  | zero => intro node ids s c _ _ _ nd2 s2 h; exact absurd h (by simp [buildNode])
  | succ fuel ih =>
    rintro ⟨pl, fr, bk, polys⟩ ids s c hc hge hgi nd2 s2 hrun
    rw [NodeGE.eq_def] at hge
    obtain ⟨hgp, hgf, hgb⟩ := hge
    cases ids with
    | nil =>
      simp only [buildNode, Option.some_inj] at hrun
      obtain ⟨rfl, rfl⟩ := Prod.mk.injEq .. ▸ hrun
      refine ⟨presRefl c s, ?_⟩
      rw [NodeGE.eq_def]
      exact ⟨hgp, hgf, hgb⟩
    | cons pid rest =>
      have hstep : ∀ (fro : Option BNode) (ids2 : List ℕ) (sA : PStore α),
          c ≤ sA.nxt →
          (match fro with | some f => NodeGE c f | none => True) →
          ListGE c ids2 →
          ∀ out : Option BNode × PStore α,
            (if ids2.length > 0 then
              (buildNode rt fuel (fro.getD emptyNode) ids2 sA).map
                (fun q => (some q.1, q.2))
            else some (fro, sA)) = some out →
            Pres c sA out.2 ∧
            (match out.1 with | some n => NodeGE c n | none => True) := by
        intro fro ids2 sA hcA hgo hgi2 out hout
        by_cases hl : ids2.length > 0
        · rw [if_pos hl] at hout
          rcases hb : buildNode rt fuel (fro.getD emptyNode) ids2 sA with _ | ⟨ndq, sq⟩
          · rw [hb] at hout
            exact absurd hout (by simp)
          · rw [hb] at hout
            simp only [Option.map_some', Option.some_inj] at hout
            subst hout
            have hgeo : NodeGE c (fro.getD emptyNode) := by
              cases fro with
              | none => exact nodeGE_empty c
              | some f => exact hgo
            obtain ⟨hq1, hq2⟩ := ih (fro.getD emptyNode) ids2 sA c hcA hgeo hgi2 ndq sq hb
            exact ⟨hq1, hq2⟩
        · rw [if_neg hl] at hout
          rw [Option.some_inj] at hout
          subst hout
          exact ⟨presRefl c sA, hgo⟩
      simp only [buildNode] at hrun
      generalize hpl : (match pl with | some p => p | none => (s.recs pid).plane) = plane at hrun
      have hgrest : ListGE c rest := fun x hx => hgi x (List.mem_cons_of_mem pid hx)
      obtain ⟨hF1, hgc, hgfl, hgbl⟩ := buildSplitFold_frame rt plane rest s c hc hgrest
      split at hrun
      · exact absurd hrun (by simp)
      next fr2 sB hsf =>
        obtain ⟨h2p, h2g⟩ := hstep fr (buildSplitFold rt plane rest s).2.2.1
          (buildSplitFold rt plane rest s).1 (le_trans hc hF1.1) hgf hgfl (fr2, sB) hsf
        simp only at h2p h2g
        split at hrun
        · exact absurd hrun (by simp)
        next bk2 sC hsb =>
          obtain ⟨h3p, h3g⟩ := hstep bk (buildSplitFold rt plane rest s).2.2.2
            sB (le_trans (le_trans hc hF1.1) h2p.1) hgb hgbl (bk2, sC) hsb
          simp only at h3p h3g
          simp only [Option.some_inj] at hrun
          obtain ⟨rfl, rfl⟩ := Prod.mk.injEq .. ▸ hrun
          refine ⟨presTrans hF1 (presTrans h2p h3p), ?_⟩
          rw [NodeGE.eq_def]
          refine ⟨?_, h2g, h3g⟩
          refine listGE_append (listGE_append hgp ?_) hgc
          intro x hx
          rcases List.mem_singleton.mp hx with rfl
          exact hgi x (List.mem_cons_self x rest)

theorem mkNode_frame (rt : ℚ → ℚ) (fuel : ℕ) (ids : List ℕ) (s : PStore α)
    (c : ℕ) (hc : c ≤ s.nxt) (hgi : ListGE c ids) :
    ∀ (nd2 : BNode) (s2 : PStore α), mkNode rt fuel ids s = some (nd2, s2) →
      Pres c s s2 ∧ NodeGE c nd2 := by
  intro nd2 s2 h
  unfold mkNode at h
  split at h
  · exact buildNode_frame rt fuel emptyNode ids s c hc (nodeGE_empty c) hgi nd2 s2 h
  · rw [Option.some_inj] at h
    obtain ⟨rfl, rfl⟩ := Prod.mk.injEq .. ▸ h
    exact ⟨presRefl c s, nodeGE_empty c⟩

theorem bspUnion_frame (rt : ℚ → ℚ) (fuel : ℕ) (pa pb : List ℕ)
    (s : PStore α) :
    ∀ r, bspUnion rt fuel pa pb s = some r → Pres s.nxt s r.1 := by
  intro r hr
  simp only [bspUnion] at hr
  obtain ⟨hca, hgea⟩ := cloneIds_frame rt pa s s.nxt le_rfl
  obtain ⟨hcb, hgeb⟩ := cloneIds_frame rt pb (cloneIds rt pa s).2 s.nxt hca.1
  split at hr
  · exact absurd hr (by simp)
  next a0 s1 hm1 =>
    split at hr
    · exact absurd hr (by simp)
    next b0 s2 hm2 =>
      have hn1 : s.nxt ≤ (cloneIds rt pb (cloneIds rt pa s).2).2.nxt :=
        le_trans hca.1 hcb.1
      obtain ⟨hp1, hg1⟩ := mkNode_frame rt fuel _ _ s.nxt hn1 hgea a0 s1 hm1
      have hn2 : s.nxt ≤ s1.nxt := le_trans hn1 hp1.1
      obtain ⟨hp2, hg2⟩ := mkNode_frame rt fuel _ _ s.nxt hn2 hgeb b0 s2 hm2
      have hn3 : s.nxt ≤ s2.nxt := le_trans hn2 hp2.1
      set ra := clipTo rt a0 b0 s2 with hradef
      obtain ⟨hp3, hg3⟩ := clipTo_frame rt (ndepth a0) a0 le_rfl b0 s2 s.nxt hn3 hg1
      have hn4 : s.nxt ≤ ra.2.nxt := le_trans hn3 hp3.1
      set rb := clipTo rt b0 ra.1 ra.2 with hrbdef
      obtain ⟨hp4, hg4⟩ := clipTo_frame rt (ndepth b0) b0 le_rfl ra.1 ra.2 s.nxt hn4 hg2
      have hn5 : s.nxt ≤ rb.2.nxt := le_trans hn4 hp4.1
      set rb2 := invertNode rb.1 rb.2 with hrb2def
      obtain ⟨hp5, hg5⟩ := invertNode_frame (ndepth rb.1) rb.1 le_rfl rb.2 s.nxt hg4
      have hn6 : s.nxt ≤ rb2.2.nxt := le_trans hn5 hp5.1
      set rb3 := clipTo rt rb2.1 ra.1 rb2.2 with hrb3def
      obtain ⟨hp6, hg6⟩ := clipTo_frame rt (ndepth rb2.1) rb2.1 le_rfl ra.1 rb2.2
        s.nxt hn6 hg5
      have hn7 : s.nxt ≤ rb3.2.nxt := le_trans hn6 hp6.1
      set rb4 := invertNode rb3.1 rb3.2 with hrb4def
      obtain ⟨hp7, hg7⟩ := invertNode_frame (ndepth rb3.1) rb3.1 le_rfl rb3.2 s.nxt hg6
      have hn8 : s.nxt ≤ rb4.2.nxt := le_trans hn7 hp7.1
      split at hr
      · exact absurd hr (by simp)
      next a2 s3 hm3 =>
        obtain ⟨hp8, hg8⟩ := buildNode_frame rt fuel _ _ _ s.nxt hn8 hg3
          (allPolys_GE (ndepth rb4.1) rb4.1 le_rfl s.nxt hg7) a2 s3 hm3
        rw [Option.some_inj] at hr
        subst hr
        exact presTrans hca (presTrans hcb (presTrans hp1 (presTrans hp2
          (presTrans hp3 (presTrans hp4 (presTrans hp5 (presTrans hp6
            (presTrans hp7 hp8))))))))

theorem bspSubtract_frame (rt : ℚ → ℚ) (fuel : ℕ) (pa pb : List ℕ)
    (s : PStore α) :
    ∀ r, bspSubtract rt fuel pa pb s = some r → Pres s.nxt s r.1 := by
  intro r hr
  simp only [bspSubtract] at hr
  obtain ⟨hca, hgea⟩ := cloneIds_frame rt pa s s.nxt le_rfl
  obtain ⟨hcb, hgeb⟩ := cloneIds_frame rt pb (cloneIds rt pa s).2 s.nxt hca.1
  split at hr
  · exact absurd hr (by simp)
  next a0 s1 hm1 =>
    split at hr
    · exact absurd hr (by simp)
    next b0 s2 hm2 =>
      have hn1 : s.nxt ≤ (cloneIds rt pb (cloneIds rt pa s).2).2.nxt :=
        le_trans hca.1 hcb.1
      obtain ⟨hp1, hg1⟩ := mkNode_frame rt fuel _ _ s.nxt hn1 hgea a0 s1 hm1
      have hn2 : s.nxt ≤ s1.nxt := le_trans hn1 hp1.1
      obtain ⟨hp2, hg2⟩ := mkNode_frame rt fuel _ _ s.nxt hn2 hgeb b0 s2 hm2
      have hn3 : s.nxt ≤ s2.nxt := le_trans hn2 hp2.1
      set ra0 := invertNode a0 s2 with hra0def
      obtain ⟨hp3a, hg3a⟩ := invertNode_frame (ndepth a0) a0 le_rfl s2 s.nxt hg1
      have hn3a : s.nxt ≤ ra0.2.nxt := le_trans hn3 hp3a.1
      set ra := clipTo rt ra0.1 b0 ra0.2 with hradef
      obtain ⟨hp3, hg3⟩ := clipTo_frame rt (ndepth ra0.1) ra0.1 le_rfl b0 ra0.2
        s.nxt hn3a hg3a
      have hn4 : s.nxt ≤ ra.2.nxt := le_trans hn3a hp3.1
      set rb := clipTo rt b0 ra.1 ra.2 with hrbdef
      obtain ⟨hp4, hg4⟩ := clipTo_frame rt (ndepth b0) b0 le_rfl ra.1 ra.2 s.nxt hn4 hg2
      have hn5 : s.nxt ≤ rb.2.nxt := le_trans hn4 hp4.1
      set rb2 := invertNode rb.1 rb.2 with hrb2def
      obtain ⟨hp5, hg5⟩ := invertNode_frame (ndepth rb.1) rb.1 le_rfl rb.2 s.nxt hg4
      have hn6 : s.nxt ≤ rb2.2.nxt := le_trans hn5 hp5.1
      set rb3 := clipTo rt rb2.1 ra.1 rb2.2 with hrb3def
      obtain ⟨hp6, hg6⟩ := clipTo_frame rt (ndepth rb2.1) rb2.1 le_rfl ra.1 rb2.2
        s.nxt hn6 hg5
      have hn7 : s.nxt ≤ rb3.2.nxt := le_trans hn6 hp6.1
      set rb4 := invertNode rb3.1 rb3.2 with hrb4def
      obtain ⟨hp7, hg7⟩ := invertNode_frame (ndepth rb3.1) rb3.1 le_rfl rb3.2 s.nxt hg6
      have hn8 : s.nxt ≤ rb4.2.nxt := le_trans hn7 hp7.1
      split at hr
      · exact absurd hr (by simp)
      next a2 s3 hm3 =>
        obtain ⟨hp8, hg8⟩ := buildNode_frame rt fuel _ _ _ s.nxt hn8 hg3
          (allPolys_GE (ndepth rb4.1) rb4.1 le_rfl s.nxt hg7) a2 s3 hm3
        obtain ⟨hp9, hg9⟩ := invertNode_frame (ndepth a2) a2 le_rfl s3 s.nxt hg8
        rw [Option.some_inj] at hr
        subst hr
        exact presTrans hca (presTrans hcb (presTrans hp1 (presTrans hp2
          (presTrans hp3a (presTrans hp3 (presTrans hp4 (presTrans hp5
            (presTrans hp6 (presTrans hp7 (presTrans hp8 hp9))))))))))

theorem bspIntersect_frame (rt : ℚ → ℚ) (fuel : ℕ) (pa pb : List ℕ)
    (s : PStore α) :
    ∀ r, bspIntersect rt fuel pa pb s = some r → Pres s.nxt s r.1 := by
  intro r hr
  simp only [bspIntersect] at hr
  obtain ⟨hca, hgea⟩ := cloneIds_frame rt pa s s.nxt le_rfl
  obtain ⟨hcb, hgeb⟩ := cloneIds_frame rt pb (cloneIds rt pa s).2 s.nxt hca.1
  split at hr
  · exact absurd hr (by simp)
  next a0 s1 hm1 =>
    split at hr
    · exact absurd hr (by simp)
    next b0 s2 hm2 =>
      have hn1 : s.nxt ≤ (cloneIds rt pb (cloneIds rt pa s).2).2.nxt :=
        le_trans hca.1 hcb.1
      obtain ⟨hp1, hg1⟩ := mkNode_frame rt fuel _ _ s.nxt hn1 hgea a0 s1 hm1
      have hn2 : s.nxt ≤ s1.nxt := le_trans hn1 hp1.1
      obtain ⟨hp2, hg2⟩ := mkNode_frame rt fuel _ _ s.nxt hn2 hgeb b0 s2 hm2
      have hn3 : s.nxt ≤ s2.nxt := le_trans hn2 hp2.1
      set ra0 := invertNode a0 s2 with hra0def
      obtain ⟨hp3a, hg3a⟩ := invertNode_frame (ndepth a0) a0 le_rfl s2 s.nxt hg1
      have hn3a : s.nxt ≤ ra0.2.nxt := le_trans hn3 hp3a.1
      set rb := clipTo rt b0 ra0.1 ra0.2 with hrbdef
      obtain ⟨hp4, hg4⟩ := clipTo_frame rt (ndepth b0) b0 le_rfl ra0.1 ra0.2
        s.nxt hn3a hg2
      have hn5 : s.nxt ≤ rb.2.nxt := le_trans hn3a hp4.1
      set rb2 := invertNode rb.1 rb.2 with hrb2def
      obtain ⟨hp5, hg5⟩ := invertNode_frame (ndepth rb.1) rb.1 le_rfl rb.2 s.nxt hg4
      have hn6 : s.nxt ≤ rb2.2.nxt := le_trans hn5 hp5.1
      set ra := clipTo rt ra0.1 rb2.1 rb2.2 with hradef
      obtain ⟨hp3, hg3⟩ := clipTo_frame rt (ndepth ra0.1) ra0.1 le_rfl rb2.1 rb2.2
        s.nxt hn6 hg3a
      have hn7 : s.nxt ≤ ra.2.nxt := le_trans hn6 hp3.1
      set rb3 := clipTo rt rb2.1 ra.1 ra.2 with hrb3def
      obtain ⟨hp6, hg6⟩ := clipTo_frame rt (ndepth rb2.1) rb2.1 le_rfl ra.1 ra.2
        s.nxt hn7 hg5
      have hn8 : s.nxt ≤ rb3.2.nxt := le_trans hn7 hp6.1
      split at hr
      · exact absurd hr (by simp)
      next a2 s3 hm3 =>
        obtain ⟨hp8, hg8⟩ := buildNode_frame rt fuel _ _ _ s.nxt hn8 hg3
          (allPolys_GE (ndepth rb3.1) rb3.1 le_rfl s.nxt hg6) a2 s3 hm3
        obtain ⟨hp9, hg9⟩ := invertNode_frame (ndepth a2) a2 le_rfl s3 s.nxt hg8
        rw [Option.some_inj] at hr
        subst hr
        exact presTrans hca (presTrans hcb (presTrans hp1 (presTrans hp2
          (presTrans hp3a (presTrans hp4 (presTrans hp5 (presTrans hp3
            (presTrans hp6 (presTrans hp8 hp9)))))))))

theorem bspInverse_frame (rt : ℚ → ℚ) (pa : List ℕ) (s : PStore α) :
    Pres s.nxt s (bspInverse rt pa s).2 := by
  simp only [bspInverse]
  obtain ⟨hca, hgea⟩ := cloneIds_frame rt pa s s.nxt le_rfl
  exact presTrans hca (flipIds_frame _ _ s.nxt hgea)

/-- C10. -/
theorem c10_operands_unchanged (rt : ℚ → ℚ) {α : Type} (fuel : ℕ)
    (s : PStore α) (pa pb : List ℕ) :
    ((bspUnion rt fuel pa pb s).map (fun r => restrictStore s.nxt r.1) =
      (bspUnion rt fuel pa pb s).map (fun _ => restrictStore s.nxt s)) ∧
    ((bspSubtract rt fuel pa pb s).map (fun r => restrictStore s.nxt r.1) =
      (bspSubtract rt fuel pa pb s).map (fun _ => restrictStore s.nxt s)) ∧
    ((bspIntersect rt fuel pa pb s).map (fun r => restrictStore s.nxt r.1) =
      (bspIntersect rt fuel pa pb s).map (fun _ => restrictStore s.nxt s)) ∧
    restrictStore s.nxt (bspInverse rt pa s).2 = restrictStore s.nxt s := by
  have hres : ∀ (s2 : PStore α), Pres s.nxt s s2 →
      restrictStore s.nxt s2 = restrictStore s.nxt s := by
    intro s2 hp
    funext i
    simp only [restrictStore]
    split
    · rw [hp.2 i (by assumption)]
    · rfl
  refine ⟨?_, ?_, ?_, hres _ (bspInverse_frame rt pa s)⟩
  · rcases h : bspUnion rt fuel pa pb s with _ | r
    · rfl
    · simp only [Option.map_some']
      rw [hres r.1 (bspUnion_frame rt fuel pa pb s r h)]
  · rcases h : bspSubtract rt fuel pa pb s with _ | r
    · rfl
    · simp only [Option.map_some']
      rw [hres r.1 (bspSubtract_frame rt fuel pa pb s r h)]
  · rcases h : bspIntersect rt fuel pa pb s with _ | r
    · rfl
    · simp only [Option.map_some']
      rw [hres r.1 (bspIntersect_frame rt fuel pa pb s r h)]

end FFG

namespace FFG

/-! ## Toolkit for the flip pass: determinant identities -/

/-- `sideVal` is invariant under cyclic rotation. -/
theorem sideVal_rot (a b c : V2) : sideVal b c a = sideVal a b c := by
  unfold sideVal; ring

/-- Swapping the first two arguments negates `sideVal`. -/
theorem sideVal_swap (a b c : V2) : sideVal b a c = -sideVal a b c := by
  unfold sideVal; ring

/-- `sideVal` vanishes when two arguments coincide. -/
theorem sideVal_self12 (a c : V2) : sideVal a a c = 0 := by
  unfold sideVal; ring

theorem sideVal_self13 (a b : V2) : sideVal a b a = 0 := by
  unfold sideVal; ring

theorem sideVal_self23 (a b : V2) : sideVal a b b = 0 := by
  unfold sideVal; ring

/-- `inCircleVal` is invariant under cyclic rotation of the triple. -/
theorem icv_rot (a b c d : V2) : inCircleVal b c a d = inCircleVal a b c d := by
  unfold inCircleVal; ring

/-- The even permutation swapping both the edge and the pair of apexes. -/
theorem icv_pair_swap (a b c d : V2) :
    inCircleVal b a d c = inCircleVal a b c d := by
  unfold inCircleVal; ring

/-- The new diagonal seen from the flipped triangle `i = (d, c, a)` against
apex `b`: the odd permutation negates the determinant. -/
theorem icv_diag_i (a b c d : V2) :
    inCircleVal d c a b = -inCircleVal a b c d := by
  unfold inCircleVal; ring

/-- The new diagonal seen from the flipped triangle `j = (c, d, b)` against
apex `a`. -/
theorem icv_diag_j (a b c d : V2) :
    inCircleVal c d b a = -inCircleVal a b c d := by
  unfold inCircleVal; ring

/-- The measure identity: the lifted-volume weight lost by replacing the
triangles `(a,b,c), (b,a,d)` with `(d,c,a), (c,d,b)` is exactly the
in-circle determinant. -/
theorem mu_flip_identity (a b c d : V2) :
    sideVal a b c * (zLift a + zLift b + zLift c) +
      sideVal b a d * (zLift b + zLift a + zLift d) -
      sideVal d c a * (zLift d + zLift c + zLift a) -
      sideVal c d b * (zLift c + zLift d + zLift b) =
    inCircleVal a b c d := by
  unfold sideVal zLift inCircleVal; ring

set_option maxHeartbeats 2000000

/-- The tangent-line argument: if `(a,b,c)` is counter-clockwise, `d` is
strictly right of `(a,b)` and strictly inside the circumcircle of
`(a,b,c)`, then both triangles produced by the flip are counter-clockwise. -/
theorem flip_ccw (a b c d : V2) (h1 : 0 < sideVal a b c)
    (h2 : 0 < sideVal b a d) (hD : 0 < inCircleVal a b c d) :
    0 < sideVal d c a ∧ 0 < sideVal c d b := by
  have hg : sideVal a b d < 0 := by
    have := sideVal_swap a b d; linarith
  set ux := b.x - a.x with hux
  set uy := b.y - a.y with huy
  set vx := c.x - a.x with hvx
  set vy := c.y - a.y with hvy
  set W1 := (ux * ux + uy * uy) * vy - (vx * vx + vy * vy) * uy with hW1
  set W2 := (vx * vx + vy * vy) * ux - (ux * ux + uy * uy) * vx with hW2
  set Sd := -((d.x - a.x) * W1 + (d.y - a.y) * W2) with hSd
  have hId1 : inCircleVal a b c d =
      -(sideVal a b c) * ((d.x - a.x) ^ 2 + (d.y - a.y) ^ 2) - Sd := by
    rw [hSd, hW1, hW2, hux, huy, hvx, hvy]; unfold inCircleVal sideVal; ring
  have hSdneg : Sd < 0 := by
    nlinarith [sq_nonneg (d.x - a.x), sq_nonneg (d.y - a.y)]
  have hId2 : sideVal a b c * Sd =
      -(vx * vx + vy * vy) * sideVal a b c * sideVal a b d +
        -(ux * ux + uy * uy) * sideVal a b c * sideVal c a d := by
    rw [hSd, hW1, hW2, hux, huy, hvx, hvy]; unfold sideVal; ring
  have hhd : 0 < sideVal c a d := by
    by_contra hcon
    push_neg at hcon
    have e1 : 0 ≤ (vx * vx + vy * vy) * sideVal a b c * (-sideVal a b d) :=
      mul_nonneg (mul_nonneg
        (add_nonneg (mul_self_nonneg vx) (mul_self_nonneg vy)) h1.le) (by linarith)
    have e2 : 0 ≤ (ux * ux + uy * uy) * sideVal a b c * (-sideVal c a d) :=
      mul_nonneg (mul_nonneg
        (add_nonneg (mul_self_nonneg ux) (mul_self_nonneg uy)) h1.le) (by linarith)
    have e3 : sideVal a b c * Sd < 0 := mul_neg_of_pos_of_neg h1 hSdneg
    nlinarith [hId2, e1, e2, e3]
  refine ⟨by rw [sideVal_rot a d c, sideVal_rot c a d]; exact hhd, ?_⟩
  set bx := a.x - b.x with hbx
  set by2 := a.y - b.y with hby2
  set cx := c.x - b.x with hcx
  set cy := c.y - b.y with hcy
  set W1b := (cx * cx + cy * cy) * by2 - (bx * bx + by2 * by2) * cy with hW1b
  set W2b := (bx * bx + by2 * by2) * cx - (cx * cx + cy * cy) * bx with hW2b
  set Sdb := -((d.x - b.x) * W1b + (d.y - b.y) * W2b) with hSdb
  have hIdb : inCircleVal a b c d =
      -(sideVal a b c) * ((d.x - b.x) ^ 2 + (d.y - b.y) ^ 2) - Sdb := by
    rw [hSdb, hW1b, hW2b, hbx, hby2, hcx, hcy]; unfold inCircleVal sideVal; ring
  have hSdbneg : Sdb < 0 := by
    nlinarith [sq_nonneg (d.x - b.x), sq_nonneg (d.y - b.y)]
  have hId3 : sideVal a b c * Sdb =
      -(cx * cx + cy * cy) * sideVal a b c * sideVal a b d +
        -(bx * bx + by2 * by2) * sideVal a b c * sideVal b c d := by
    rw [hSdb, hW1b, hW2b, hbx, hby2, hcx, hcy]; unfold sideVal; ring
  have hfd : 0 < sideVal b c d := by
    by_contra hcon
    push_neg at hcon
    have e1 : 0 ≤ (cx * cx + cy * cy) * sideVal a b c * (-sideVal a b d) :=
      mul_nonneg (mul_nonneg
        (add_nonneg (mul_self_nonneg cx) (mul_self_nonneg cy)) h1.le) (by linarith)
    have e2 : 0 ≤ (bx * bx + by2 * by2) * sideVal a b c * (-sideVal b c d) :=
      mul_nonneg (mul_nonneg
        (add_nonneg (mul_self_nonneg bx) (mul_self_nonneg by2)) h1.le) (by linarith)
    have e3 : sideVal a b c * Sdb < 0 := mul_neg_of_pos_of_neg h1 hSdbneg
    nlinarith [hId3, e1, e2, e3]
  rw [sideVal_rot b c d]; exact hfd

/-! ## Toolkit: triangle records, slots mod 3, list updates -/

theorem vAt_mod_eq (t : Tri) {s s2 : ℕ} (h : s % 3 = s2 % 3) :
    t.vAt s = t.vAt s2 := by
  unfold Tri.vAt; rw [h]

theorem nAt_mod_eq (t : Tri) {s s2 : ℕ} (h : s % 3 = s2 % 3) :
    t.nAt s = t.nAt s2 := by
  unfold Tri.nAt; rw [h]

theorem vAt0 (t : Tri) : t.vAt 0 = t.v0 := rfl

theorem vAt1 (t : Tri) : t.vAt 1 = t.v1 := rfl

theorem vAt2 (t : Tri) : t.vAt 2 = t.v2 := rfl

theorem nAt0 (t : Tri) : t.nAt 0 = t.n0 := rfl

theorem nAt1 (t : Tri) : t.nAt 1 = t.n1 := rfl

theorem nAt2 (t : Tri) : t.nAt 2 = t.n2 := rfl

/-- On a triangle whose stored vertex slots are pairwise distinct, equal
`vAt` values force equal slots mod 3. -/
theorem vAt_inj_aux (t : Tri) (hd0 : t.v0 ≠ t.v1) (hd1 : t.v1 ≠ t.v2)
    (hd2 : t.v0 ≠ t.v2) :
    ∀ r < 3, ∀ r2 < 3, t.vAt r = t.vAt r2 → r = r2 := by
  intro r hr r2 hr2 h
  interval_cases r <;> interval_cases r2 <;> simp_all [Tri.vAt]

theorem vAt_inj (t : Tri) (hd0 : t.v0 ≠ t.v1) (hd1 : t.v1 ≠ t.v2)
    (hd2 : t.v0 ≠ t.v2) {s s2 : ℕ} (h : t.vAt s = t.vAt s2) :
    s % 3 = s2 % 3 := by
  refine vAt_inj_aux t hd0 hd1 hd2 (s % 3) (Nat.mod_lt _ (by norm_num))
    (s2 % 3) (Nat.mod_lt _ (by norm_num)) ?_
  rw [vAt_mod_eq t (Nat.mod_mod_of_dvd s dvd_rfl),
    vAt_mod_eq t (Nat.mod_mod_of_dvd s2 dvd_rfl)]
  exact h

theorem length_setT (tris : List Tri) (i : ℕ) (t : Tri) :
    (setT tris i t).length = tris.length := by
  simp [setT]

theorem getT_setT_self (tris : List Tri) (i : ℕ) (t : Tri)
    (h : i < tris.length) : getT (setT tris i t) i = t := by
  unfold getT setT
  rw [List.getD_eq_getElem?_getD, List.getElem?_set_self h]
  simp

theorem getT_setT_ne (tris : List Tri) (i : ℕ) (t : Tri) (m : ℕ)
    (h : m ≠ i) : getT (setT tris i t) m = getT tris m := by
  unfold getT setT
  rw [List.getD_eq_getElem?_getD, List.getD_eq_getElem?_getD,
    List.getElem?_set_ne (fun e => h e.symm)]

/-- `rewireFirst` never changes the vertex slots. -/
theorem rewireFirst_v (t : Tri) (o n : ℕ) :
    (rewireFirst t o n).v0 = t.v0 ∧ (rewireFirst t o n).v1 = t.v1 ∧
      (rewireFirst t o n).v2 = t.v2 := by
  unfold rewireFirst; split_ifs <;> exact ⟨rfl, rfl, rfl⟩

/-- With at most one occurrence of `o` among the neighbours,
`rewireFirst` is slot-wise replacement. -/
theorem rewireFirst_nAt (t : Tri) (o n : ℕ)
    (h01 : t.n0 = o → t.n1 ≠ o) (h02 : t.n0 = o → t.n2 ≠ o)
    (h12 : t.n1 = o → t.n2 ≠ o) (s : ℕ) :
    (rewireFirst t o n).nAt s = if t.nAt s = o then n else t.nAt s := by
  have h3 : s % 3 = 0 ∨ s % 3 = 1 ∨ s % 3 = 2 := by omega
  unfold rewireFirst Tri.nAt
  rcases h3 with h | h | h <;> simp only [h] <;> split_ifs <;>
    dsimp only <;> first | rfl | tauto

/-- First slot holding `o` is replaced (used for ghosts, whose back
pointer is always `n0`). -/
theorem rewireFirst_n0_hit (t : Tri) (o n : ℕ) (h : t.n0 = o) :
    (rewireFirst t o n).n0 = n := by
  unfold rewireFirst; rw [if_pos h]

/-- No occurrence: `rewireFirst` is the identity. -/
theorem rewireFirst_miss (t : Tri) (o n : ℕ) (h0 : t.n0 ≠ o)
    (h1 : t.n1 ≠ o) (h2 : t.n2 ≠ o) : rewireFirst t o n = t := by
  unfold rewireFirst; rw [if_neg h0, if_neg h1, if_neg h2]

theorem muMeas_cons (V : List V2) (t : Tri) (tl : List Tri) :
    muMeas V (t :: tl) = wTri V t + muMeas V tl := by
  simp [muMeas]

/-- Updating one triangle shifts the measure by the weight difference. -/
theorem muMeas_setT (V : List V2) (tris : List Tri) (m : ℕ) (t : Tri)
    (hm : m < tris.length) :
    muMeas V (setT tris m t) = muMeas V tris - wTri V (getT tris m) + wTri V t := by
  induction tris generalizing m with
  | nil => simp at hm
  | cons hd tl ih =>
    cases m with
    | zero =>
      show muMeas V (t :: tl) = _
      rw [muMeas_cons, muMeas_cons]
      have : getT (hd :: tl) 0 = hd := rfl
      rw [this]; ring
    | succ m' =>
      have hset : setT (hd :: tl) (m' + 1) t = hd :: setT tl m' t := rfl
      have hget : getT (hd :: tl) (m' + 1) = getT tl m' := rfl
      rw [hset, muMeas_cons, muMeas_cons, hget,
        ih m' (by simpa using Nat.lt_of_succ_lt_succ hm)]
      ring

/-- Updating only the neighbour fields leaves the measure unchanged. -/
theorem wTri_n_irrel (V : List V2) (t t2 : Tri) (h0 : t2.v0 = t.v0)
    (h1 : t2.v1 = t.v1) (h2 : t2.v2 = t.v2) : wTri V t2 = wTri V t := by
  unfold wTri; rw [h0, h1, h2]

/-! ## Toolkit: the measure takes finitely many values -/

theorem getT_lt (tris : List Tri) (i : ℕ) (h : i < tris.length) :
    getT tris i = tris.get ⟨i, h⟩ := by
  unfold getT
  rw [List.getD_eq_getElem?_getD, List.getElem?_eq_getElem h]
  rfl

theorem muMeas_fin (V : List V2) (tris : List Tri) :
    muMeas V tris = ∑ k : Fin tris.length, wTri V (tris.get k) := by
  unfold muMeas
  induction tris with
  | nil => simp
  | cons hd tl ih =>
    rw [List.map_cons, List.sum_cons, ih]
    simp only [List.length_cons]
    rw [Fin.sum_univ_succ]
    rfl

theorem wAbs_some (V : List V2)
    (x y z : Fin V.length) : wAbs V (some (x, y, z)) =
      sideVal (V.getD x.val default) (V.getD y.val default) (V.getD z.val default) *
        (zLift (V.getD x.val default) + zLift (V.getD y.val default) +
          zLift (V.getD z.val default)) := rfl

theorem wTri_some (V : List V2) (t : Tri) (c : ℕ) (h : t.v2 = some c) :
    wTri V t = sideVal (vposL V t.v0) (vposL V t.v1) (vposL V t.v2) *
      (zLift (vposL V t.v0) + zLift (vposL V t.v1) + zLift (vposL V t.v2)) := by
  unfold wTri; rw [h]

theorem wTri_ghost (V : List V2) (t : Tri) (h : t.v2 = none) :
    wTri V t = 0 := by
  unfold wTri; rw [h]

/-- Under the bounds invariant the measure is one of the finitely many
values enumerated by `muSet`. -/
theorem muMeas_mem (V : List V2) (tris : List Tri)
    (hB : BoundsOk V.length tris) : muMeas V tris ∈ muSet V tris.length := by
  classical
  have hb0 : ∀ k : Fin tris.length, ovi (getT tris k.val).v0 < V.length := by
    intro k
    obtain ⟨a, ha, he⟩ := (hB k.val k.isLt).1
    rw [he]; simpa [ovi] using ha
  have hb1 : ∀ k : Fin tris.length, ovi (getT tris k.val).v1 < V.length := by
    intro k
    obtain ⟨a, ha, he⟩ := (hB k.val k.isLt).2.1
    rw [he]; simpa [ovi] using ha
  have hb2 : ∀ k : Fin tris.length, (getT tris k.val).v2 ≠ none →
      ovi (getT tris k.val).v2 < V.length := by
    intro k hk
    obtain ⟨a, ha, he⟩ := (hB k.val k.isLt).2.2 hk
    rw [he]; simpa [ovi] using ha
  refine Finset.mem_image.mpr ⟨fun k =>
    if h : (getT tris k.val).v2 = none then none
    else some (⟨ovi (getT tris k.val).v0, hb0 k⟩, ⟨ovi (getT tris k.val).v1, hb1 k⟩,
      ⟨ovi (getT tris k.val).v2, hb2 k h⟩), Finset.mem_univ _, ?_⟩
  rw [muMeas_fin]
  refine Finset.sum_congr rfl ?_
  intro k _
  dsimp only
  by_cases h : (getT tris k.val).v2 = none
  · rw [dif_pos h, ← getT_lt tris k.val k.isLt]
    unfold wAbs wTri
    rw [h]
  · rw [dif_neg h, ← getT_lt tris k.val k.isLt]
    obtain ⟨c, hc, he⟩ := (hB k.val k.isLt).2.2 h
    rw [wAbs_some, wTri_some V _ c he]
    rfl

/-- Strictly smaller measure means strictly smaller rank in `muSet`. -/
theorem muRank_lt {S : Finset ℚ} {x y : ℚ} (hy : y ∈ S) (h : y < x) :
    (S.filter (fun z => z < y)).card < (S.filter (fun z => z < x)).card := by
  apply Finset.card_lt_card
  rw [Finset.ssubset_iff_of_subset]
  · exact ⟨y, Finset.mem_filter.mpr ⟨hy, h⟩,
      fun hmem => absurd (Finset.mem_filter.mp hmem).2 (lt_irrefl y)⟩
  · intro z hz
    rw [Finset.mem_filter] at hz ⊢
    exact ⟨hz.1, hz.2.trans h⟩

/-! ## Toolkit: slot-level readings of the invariants -/

theorem side_left_iff (a b c : V2) : side a b c = .LEFT ↔ 0 < sideVal a b c := by
  unfold side
  split_ifs with h1 h2 <;> simp_all

theorem inCircle_inside_iff (a b c d : V2) :
    inCircle a b c d = .INSIDE ↔ 0 < inCircleVal a b c d := by
  unfold inCircle
  split_ifs with h1 h2 <;> simp_all

theorem icv_dup (a b c : V2) : inCircleVal a b c c = 0 := by
  unfold inCircleVal; ring

/-- The weight of a counter-clockwise triangle in the termination measure. -/
def wVal (a b c : V2) : ℚ :=
  sideVal a b c * (zLift a + zLift b + zLift c)

theorem wVal_rot (a b c : V2) : wVal b c a = wVal a b c := by
  unfold wVal; rw [sideVal_rot]; ring

/-- An existent triangle of a counter-clockwise triangulation stores three
pairwise distinct vertex slots. -/
theorem exTri_distinct (V : List V2) (tris : List Tri) (hccw : CCWOk V tris)
    (i : ℕ) (hi : i < tris.length) (hex : (getT tris i).v2 ≠ none) :
    (getT tris i).v0 ≠ (getT tris i).v1 ∧
      (getT tris i).v1 ≠ (getT tris i).v2 ∧
      (getT tris i).v0 ≠ (getT tris i).v2 := by
  have h := (side_left_iff _ _ _).mp (hccw i hi hex)
  refine ⟨fun he => ?_, fun he => ?_, fun he => ?_⟩ <;> rw [he] at h
  · rw [sideVal_self12] at h; exact lt_irrefl 0 h
  · rw [sideVal_self23] at h; exact lt_irrefl 0 h
  · rw [sideVal_self13] at h; exact lt_irrefl 0 h

/-- Every slot of an existent triangle holds an in-range vertex index. -/
theorem exTri_vAt (V : List V2) (tris : List Tri) (hB : BoundsOk V.length tris)
    (i : ℕ) (hi : i < tris.length) (hex : (getT tris i).v2 ≠ none) (s : ℕ) :
    ∃ a < V.length, (getT tris i).vAt s = some a := by
  have h3 : s % 3 = 0 ∨ s % 3 = 1 ∨ s % 3 = 2 := by omega
  obtain ⟨h0, h1, h2⟩ := hB i hi
  unfold Tri.vAt
  rcases h3 with h | h | h <;> simp only [h] <;> norm_num
  · exact h0
  · exact h1
  · exact h2 hex

/-- Reading the stored triple from any base slot: the record is one of the
three rotations. -/
theorem triple_rot (t : Tri) (s : ℕ) (p q c : Option ℕ)
    (hp : t.vAt s = p) (hq : t.vAt ((s + 1) % 3) = q)
    (hc : t.vAt ((s + 2) % 3) = c) :
    (t.v0 = p ∧ t.v1 = q ∧ t.v2 = c) ∨
      (t.v0 = c ∧ t.v1 = p ∧ t.v2 = q) ∨
      (t.v0 = q ∧ t.v1 = c ∧ t.v2 = p) := by
  have h3 : s % 3 = 0 ∨ s % 3 = 1 ∨ s % 3 = 2 := by omega
  rcases h3 with h | h | h
  · left
    refine ⟨?_, ?_, ?_⟩
    · rw [← hp, ← vAt0 t]; exact @vAt_mod_eq t 0 s (by omega)
    · rw [← hq, ← vAt1 t]; exact @vAt_mod_eq t 1 ((s + 1) % 3) (by omega)
    · rw [← hc, ← vAt2 t]; exact @vAt_mod_eq t 2 ((s + 2) % 3) (by omega)
  · right; left
    refine ⟨?_, ?_, ?_⟩
    · rw [← hc, ← vAt0 t]; exact @vAt_mod_eq t 0 ((s + 2) % 3) (by omega)
    · rw [← hp, ← vAt1 t]; exact @vAt_mod_eq t 1 s (by omega)
    · rw [← hq, ← vAt2 t]; exact @vAt_mod_eq t 2 ((s + 1) % 3) (by omega)
  · right; right
    refine ⟨?_, ?_, ?_⟩
    · rw [← hq, ← vAt0 t]; exact @vAt_mod_eq t 0 ((s + 1) % 3) (by omega)
    · rw [← hc, ← vAt1 t]; exact @vAt_mod_eq t 1 ((s + 2) % 3) (by omega)
    · rw [← hp, ← vAt2 t]; exact @vAt_mod_eq t 2 s (by omega)

/-- A vertex position by index. -/
def vpt (V : List V2) (k : ℕ) : V2 := V.getD k default

theorem ovi_some (a : ℕ) : ovi (some a) = a := rfl

theorem vposL_some (V : List V2) (k : ℕ) : vposL V (some k) = vpt V k := rfl

/-- Counter-clockwise read from any base slot. -/
theorem ccw_slots (V : List V2) (tris : List Tri) (hccw : CCWOk V tris)
    (i : ℕ) (hi : i < tris.length) (hex : (getT tris i).v2 ≠ none)
    (s p q c : ℕ)
    (hp : (getT tris i).vAt s = some p)
    (hq : (getT tris i).vAt ((s + 1) % 3) = some q)
    (hc : (getT tris i).vAt ((s + 2) % 3) = some c) :
    0 < sideVal (vpt V p) (vpt V q) (vpt V c) := by
  have h := (side_left_iff _ _ _).mp (hccw i hi hex)
  rcases triple_rot _ s _ _ _ hp hq hc with ⟨h0, h1, h2⟩ | ⟨h0, h1, h2⟩ |
      ⟨h0, h1, h2⟩ <;> rw [h0, h1, h2] at h <;>
    simp only [vposL_some] at h
  · exact h
  · rw [← sideVal_rot (vpt V c) (vpt V p) (vpt V q)] at h; exact h
  · rw [sideVal_rot (vpt V p) (vpt V q) (vpt V c)] at h; exact h

/-- The in-circle test read from any base slot. -/
theorem inCircleT_slots (V : List V2) (tris : List Tri)
    (i : ℕ) (s p q c : ℕ)
    (hp : (getT tris i).vAt s = some p)
    (hq : (getT tris i).vAt ((s + 1) % 3) = some q)
    (hc : (getT tris i).vAt ((s + 2) % 3) = some c) (D : V2) :
    (inCircleT V tris i D = .INSIDE ↔
      0 < inCircleVal (vpt V p) (vpt V q) (vpt V c) D) := by
  unfold inCircleT
  rw [inCircle_inside_iff]
  rcases triple_rot _ s _ _ _ hp hq hc with ⟨h0, h1, h2⟩ | ⟨h0, h1, h2⟩ |
      ⟨h0, h1, h2⟩ <;> rw [h0, h1, h2] <;>
    simp only [ovi_some]
  · rfl
  · rw [show (V.getD c default) = vpt V c from rfl,
      show (V.getD p default) = vpt V p from rfl,
      show (V.getD q default) = vpt V q from rfl,
      ← icv_rot (vpt V c) (vpt V p) (vpt V q) D]
  · rw [show (V.getD c default) = vpt V c from rfl,
      show (V.getD p default) = vpt V p from rfl,
      show (V.getD q default) = vpt V q from rfl,
      icv_rot (vpt V p) (vpt V q) (vpt V c) D]

/-- The triangle weight read from any base slot. -/
theorem wTri_slots (V : List V2) (tris : List Tri)
    (i : ℕ) (s p q c : ℕ)
    (hp : (getT tris i).vAt s = some p)
    (hq : (getT tris i).vAt ((s + 1) % 3) = some q)
    (hc : (getT tris i).vAt ((s + 2) % 3) = some c)
    (hex : (getT tris i).v2 ≠ none) :
    wTri V (getT tris i) = wVal (vpt V p) (vpt V q) (vpt V c) := by
  rcases triple_rot _ s _ _ _ hp hq hc with ⟨h0, h1, h2⟩ | ⟨h0, h1, h2⟩ |
      ⟨h0, h1, h2⟩ <;>
    rw [wTri_some V _ _ (by rw [h2]), h0, h1, h2] <;>
    simp only [vposL_some] <;> unfold wVal
  · rfl
  · rw [← sideVal_rot (vpt V c) (vpt V p) (vpt V q)]; ring
  · rw [sideVal_rot (vpt V p) (vpt V q) (vpt V c)]; ring

/-- A triangle with pairwise distinct slots cannot contain a directed
edge together with its reversal. -/
theorem no_self_reverse (t : Tri) (hd0 : t.v0 ≠ t.v1) (hd1 : t.v1 ≠ t.v2)
    (hd2 : t.v0 ≠ t.v2) (s s' : ℕ) (x y : Option ℕ)
    (hx : t.vAt s = x) (hy : t.vAt ((s + 1) % 3) = y)
    (hx' : t.vAt s' = y) (hy' : t.vAt ((s' + 1) % 3) = x) : False := by
  have e1 := vAt_inj t hd0 hd1 hd2 (hx.trans hy'.symm)
  have e2 := vAt_inj t hd0 hd1 hd2 (hy.trans hx'.symm)
  omega

/-- Neighbour data of `MutualOk`, available at an arbitrary slot. -/
theorem mutual_at (tris : List Tri) (hmut : MutualOk tris) (i : ℕ)
    (hi : i < tris.length) (hex : (getT tris i).v2 ≠ none) (s : ℕ) :
    (getT tris i).nAt s < tris.length ∧
    (if (getT tris ((getT tris i).nAt s)).v2 = none then
      (getT tris ((getT tris i).nAt s)).v0 = (getT tris i).vAt ((s + 1) % 3) ∧
      (getT tris ((getT tris i).nAt s)).v1 = (getT tris i).vAt s ∧
      (getT tris ((getT tris i).nAt s)).n0 = i
    else
      ∃ s2 < 3,
        (getT tris ((getT tris i).nAt s)).vAt s2 = (getT tris i).vAt ((s + 1) % 3) ∧
        (getT tris ((getT tris i).nAt s)).vAt ((s2 + 1) % 3) = (getT tris i).vAt s ∧
        (getT tris ((getT tris i).nAt s)).nAt s2 = i) := by
  have h := hmut i hi hex (s % 3) (Nat.mod_lt _ (by norm_num))
  rw [nAt_mod_eq (getT tris i) (Nat.mod_mod_of_dvd s dvd_rfl),
    vAt_mod_eq (getT tris i) (show (s % 3 + 1) % 3 % 3 = (s + 1) % 3 % 3 by omega),
    vAt_mod_eq (getT tris i) (Nat.mod_mod_of_dvd s dvd_rfl)] at h
  exact h

/-- What a successful neighbour-slot search guarantees. -/
theorem findSlot_sound (tj : Tri) (e : ℕ × ℕ) (s_j : ℕ)
    (h : findEdgeSlot tj e = some s_j) :
    s_j < 3 ∧ (∃ a b, tj.vAt s_j = some a ∧ tj.vAt ((s_j + 1) % 3) = some b ∧
      canonE a b = e) ∧ (s_j = 0 ∨ tj.v2 ≠ none) := by
  simp only [findEdgeSlot, findSlotLoop] at h
  split at h
  · next a b heq0 heq1 =>
    split_ifs at h with hc0
    · cases h
      exact ⟨by norm_num, ⟨a, b, by rw [vAt0]; exact heq0,
        by norm_num [vAt1]; exact heq1, hc0⟩, Or.inl rfl⟩
    · split at h
      · next a2 b2 heq2 heq3 =>
        split_ifs at h with hc1
        · cases h
          refine ⟨by norm_num, ⟨a2, b2, by rw [vAt1]; exact heq2,
            by norm_num [vAt2]; exact heq3, hc1⟩, Or.inr ?_⟩
          rw [← vAt2]; rw [heq3]; exact Option.some_ne_none b2
        · split at h
          · next a3 b3 heq4 heq5 =>
            split_ifs at h with hc2
            · cases h
              refine ⟨by norm_num, ⟨a3, b3, by rw [vAt2]; exact heq4,
                by norm_num [vAt0]; exact heq5, hc2⟩, Or.inr ?_⟩
              rw [← vAt2]; rw [heq4]; exact Option.some_ne_none a3
          · cases h
      · cases h
  · cases h

theorem vAt_mkn (t : Tri) (a b c : ℕ) (s : ℕ) :
    Tri.vAt { t with n0 := a, n1 := b, n2 := c } s = t.vAt s := rfl

theorem nAt_mkv (t : Tri) (x y z : Option ℕ) (s : ℕ) :
    Tri.nAt { t with v0 := x, v1 := y, v2 := z } s = t.nAt s := rfl

theorem canonE_cases (a b c d : ℕ) (h : canonE a b = canonE c d) :
    (a = c ∧ b = d) ∨ (a = d ∧ b = c) := by
  unfold canonE at h
  rw [Prod.mk.injEq] at h
  omega

/-- Characterization of the store and queue after a flip. -/
theorem pushSet_vals (cond : Prop) [Decidable cond] (x y : ℕ) (t s : ℕ) :
    pushSet cond (some x) (some y) t s =
      some (if cond then [⟨canonE x y, t, s⟩] else []) := by
  unfold pushSet; split_ifs <;> rfl

theorem flip_chars (tris : List Tri) (q : List QEnt) (i si j sj : ℕ)
    (e : ℕ × ℕ) (p q2 c d : ℕ) (i1 i2 j1 j2 : ℕ)
    (hi : i < tris.length) (hj : j < tris.length)
    (hij : i ≠ j) (hi1i : i1 ≠ i) (hi1j : i1 ≠ j) (hj1i : j1 ≠ i)
    (hj1j : j1 ≠ j) (hi1j1 : i1 ≠ j1)
    (hi2i : i2 ≠ i) (hi2j : i2 ≠ j) (hj2i : j2 ≠ i) (hj2j : j2 ≠ j)
    (hdi1 : (getT tris i).nAt ((si + 1) % 3) = i1)
    (hdi2 : (getT tris i).nAt ((si + 2) % 3) = i2)
    (hdj1 : (getT tris j).nAt ((sj + 1) % 3) = j1)
    (hdj2 : (getT tris j).nAt ((sj + 2) % 3) = j2)
    (hb1 : i1 < tris.length) (hb2 : i2 < tris.length)
    (hb3 : j1 < tris.length) (hb4 : j2 < tris.length)
    (hvp : (getT tris i).vAt si = some p)
    (he : canonE p q2 = e) (hpq : p ≠ q2) :
    ∃ tris2,
      flipStep tris i si j sj e d (some c) q = .next tris2 (q ++
        (if (getT tris2 i2).v2 ≠ none then [⟨canonE c p, i, 1⟩] else []) ++
        (if (getT tris2 j1).v2 ≠ none then [⟨canonE d p, i, 2⟩] else []) ++
        (if (getT tris2 j2).v2 ≠ none then [⟨canonE d q2, j, 1⟩] else []) ++
        (if (getT tris2 i1).v2 ≠ none then [⟨canonE c q2, j, 2⟩] else [])) ∧
      tris2.length = tris.length ∧
      getT tris2 i = ⟨some d, some c, some p, j, i2, j1⟩ ∧
      getT tris2 j = ⟨some c, some d, some q2, i, j2, i1⟩ ∧
      getT tris2 i1 = rewireFirst (getT tris i1) i j ∧
      getT tris2 j1 = rewireFirst (getT tris j1) j i ∧
      (∀ m, m ≠ i → m ≠ j → m ≠ i1 → m ≠ j1 → getT tris2 m = getT tris m) ∧
      (∀ m, m ≠ i → m ≠ j → (getT tris2 m).v0 = (getT tris m).v0 ∧
        (getT tris2 m).v1 = (getT tris m).v1 ∧
        (getT tris2 m).v2 = (getT tris m).v2) := by
  have hj1i1 : j1 ≠ i1 := fun h => hi1j1 h.symm
  have hii1 : i ≠ i1 := fun h => hi1i h.symm
  have hij1 : i ≠ j1 := fun h => hj1i h.symm
  have hji1 : j ≠ i1 := fun h => hi1j h.symm
  have hjj1 : j ≠ j1 := fun h => hj1j h.symm
  have hji : j ≠ i := fun h => hij h.symm
  simp only [flipStep]
  rw [hdi1, hdi2, hdj1, hdj2]
  rw [if_pos ⟨hb1, hb2, hb3, hb4⟩]
  rw [getT_setT_ne tris i1 _ j1 hj1i1]
  rw [getT_setT_ne (setT tris i1 _) j1 _ i hij1,
    getT_setT_ne tris i1 _ i hii1]
  rw [getT_setT_ne (setT (setT tris i1 _) j1 _) i _ j hji,
    getT_setT_ne (setT tris i1 _) j1 _ j hjj1,
    getT_setT_ne tris i1 _ j hji1]
  rw [getT_setT_ne (setT (setT (setT tris i1 _) j1 _) i _) j _ i hij,
    getT_setT_self (setT (setT tris i1 _) j1 _) i _
      (by rw [length_setT, length_setT]; exact hi)]
  rw [vAt_mkn, hvp]
  have hlenD : ∀ r1 r2 r3 r4, (setT (setT (setT (setT tris i1 r1) j1 r2) i r3) j r4).length = tris.length := by
    intro r1 r2 r3 r4; simp only [length_setT]
  have hlenB : ∀ r1 r2, (setT (setT tris i1 r1) j1 r2).length = tris.length := by
    intro r1 r2; simp only [length_setT]
  rcases le_or_lt p q2 with hle | hlt
  · have he1 : e.1 = p := by rw [← he]; exact min_eq_left hle
    have he2 : e.2 = q2 := by rw [← he]; exact max_eq_right hle
    rw [he1, he2, if_pos rfl]
    -- normalize the record read by the j-side vertex assignment
    rw [getT_setT_ne (setT (setT (setT (setT tris i1 _) j1 _) i _) j _) i _ j hji,
      getT_setT_self (setT (setT (setT tris i1 _) j1 _) i _) j _
        (by rw [length_setT, hlenB]; exact hj)]
    -- normalize tiNew and tjNew
    rw [getT_setT_ne (setT (setT (setT (setT (setT tris i1 _) j1 _) i _) j _) i _) j _ i hij,
      getT_setT_self (setT (setT (setT (setT tris i1 _) j1 _) i _) j _) i _
        (by rw [hlenD]; exact hi)]
    rw [getT_setT_self (setT (setT (setT (setT (setT tris i1 _) j1 _) i _) j _) i _) j _
        (by rw [length_setT, hlenD]; exact hj)]
    rw [pushSet_vals, pushSet_vals, pushSet_vals, pushSet_vals]
    refine ⟨_, rfl, by simp only [length_setT], ?_, ?_, ?_, ?_, ?_, ?_⟩
    · rw [getT_setT_ne _ j _ i hij,
        getT_setT_self _ i _ (by simp only [length_setT]; exact hi)]
    · rw [getT_setT_self _ j _ (by simp only [length_setT]; exact hj)]
    · rw [getT_setT_ne _ j _ i1 hi1j, getT_setT_ne _ i _ i1 hi1i,
        getT_setT_ne _ j _ i1 hi1j, getT_setT_ne _ i _ i1 hi1i,
        getT_setT_ne _ j1 _ i1 hi1j1, getT_setT_self _ i1 _ hb1]
    · rw [getT_setT_ne _ j _ j1 hj1j, getT_setT_ne _ i _ j1 hj1i,
        getT_setT_ne _ j _ j1 hj1j, getT_setT_ne _ i _ j1 hj1i,
        getT_setT_self _ j1 _ (by simp only [length_setT]; exact hb3)]
    · intro m hmi hmj hmi1 hmj1
      rw [getT_setT_ne _ j _ m hmj, getT_setT_ne _ i _ m hmi,
        getT_setT_ne _ j _ m hmj, getT_setT_ne _ i _ m hmi,
        getT_setT_ne _ j1 _ m hmj1, getT_setT_ne _ i1 _ m hmi1]
    · intro m hmi hmj
      by_cases hm1 : m = i1
      · subst hm1
        rw [getT_setT_ne _ j _ m hmj, getT_setT_ne _ i _ m hmi,
          getT_setT_ne _ j _ m hmj, getT_setT_ne _ i _ m hmi,
          getT_setT_ne _ j1 _ m (fun h => hj1i1 h.symm),
          getT_setT_self _ m _ hb1]
        exact rewireFirst_v (getT tris m) i j
      · by_cases hm2 : m = j1
        · subst hm2
          rw [getT_setT_ne _ j _ m hmj, getT_setT_ne _ i _ m hmi,
            getT_setT_ne _ j _ m hmj, getT_setT_ne _ i _ m hmi,
            getT_setT_self _ m _ (by simp only [length_setT]; exact hb3)]
          exact rewireFirst_v (getT tris m) j i
        · rw [getT_setT_ne _ j _ m hmj, getT_setT_ne _ i _ m hmi,
            getT_setT_ne _ j _ m hmj, getT_setT_ne _ i _ m hmi,
            getT_setT_ne _ j1 _ m hm2, getT_setT_ne _ i1 _ m hm1]
          exact ⟨rfl, rfl, rfl⟩
  · have he1 : e.1 = q2 := by rw [← he]; exact min_eq_right hlt.le
    have he2 : e.2 = p := by rw [← he]; exact max_eq_left hlt.le
    rw [he1, he2, if_neg (by simp only [Option.some.injEq]; exact hpq)]
    -- normalize the record read by the j-side vertex assignment
    rw [getT_setT_ne (setT (setT (setT (setT tris i1 _) j1 _) i _) j _) i _ j hji,
      getT_setT_self (setT (setT (setT tris i1 _) j1 _) i _) j _
        (by rw [length_setT, hlenB]; exact hj)]
    -- normalize tiNew and tjNew
    rw [getT_setT_ne (setT (setT (setT (setT (setT tris i1 _) j1 _) i _) j _) i _) j _ i hij,
      getT_setT_self (setT (setT (setT (setT tris i1 _) j1 _) i _) j _) i _
        (by rw [hlenD]; exact hi)]
    rw [getT_setT_self (setT (setT (setT (setT (setT tris i1 _) j1 _) i _) j _) i _) j _
        (by rw [length_setT, hlenD]; exact hj)]
    rw [pushSet_vals, pushSet_vals, pushSet_vals, pushSet_vals]
    refine ⟨_, rfl, by simp only [length_setT], ?_, ?_, ?_, ?_, ?_, ?_⟩
    · rw [getT_setT_ne _ j _ i hij,
        getT_setT_self _ i _ (by simp only [length_setT]; exact hi)]
    · rw [getT_setT_self _ j _ (by simp only [length_setT]; exact hj)]
    · rw [getT_setT_ne _ j _ i1 hi1j, getT_setT_ne _ i _ i1 hi1i,
        getT_setT_ne _ j _ i1 hi1j, getT_setT_ne _ i _ i1 hi1i,
        getT_setT_ne _ j1 _ i1 hi1j1, getT_setT_self _ i1 _ hb1]
    · rw [getT_setT_ne _ j _ j1 hj1j, getT_setT_ne _ i _ j1 hj1i,
        getT_setT_ne _ j _ j1 hj1j, getT_setT_ne _ i _ j1 hj1i,
        getT_setT_self _ j1 _ (by simp only [length_setT]; exact hb3)]
    · intro m hmi hmj hmi1 hmj1
      rw [getT_setT_ne _ j _ m hmj, getT_setT_ne _ i _ m hmi,
        getT_setT_ne _ j _ m hmj, getT_setT_ne _ i _ m hmi,
        getT_setT_ne _ j1 _ m hmj1, getT_setT_ne _ i1 _ m hmi1]
    · intro m hmi hmj
      by_cases hm1 : m = i1
      · subst hm1
        rw [getT_setT_ne _ j _ m hmj, getT_setT_ne _ i _ m hmi,
          getT_setT_ne _ j _ m hmj, getT_setT_ne _ i _ m hmi,
          getT_setT_ne _ j1 _ m (fun h => hj1i1 h.symm),
          getT_setT_self _ m _ hb1]
        exact rewireFirst_v (getT tris m) i j
      · by_cases hm2 : m = j1
        · subst hm2
          rw [getT_setT_ne _ j _ m hmj, getT_setT_ne _ i _ m hmi,
            getT_setT_ne _ j _ m hmj, getT_setT_ne _ i _ m hmi,
            getT_setT_self _ m _ (by simp only [length_setT]; exact hb3)]
          exact rewireFirst_v (getT tris m) j i
        · rw [getT_setT_ne _ j _ m hmj, getT_setT_ne _ i _ m hmi,
            getT_setT_ne _ j _ m hmj, getT_setT_ne _ i _ m hmi,
            getT_setT_ne _ j1 _ m hm2, getT_setT_ne _ i1 _ m hm1]
          exact ⟨rfl, rfl, rfl⟩


set_option maxHeartbeats 400000

end FFG
